import Mathlib

/-!
# Verification of the nsys-ai trace correlation and temporal-analysis engine

A shallow embedding of the core engine of the `nsys_tui` package
(`overlap.py`, `projection.py`, `tree.py`, `ai/analyzer.py`) together with
proofs and refutations of the spec's testable properties.

Conventions of the embedding:
* Timestamps are signed nanosecond integers; they are modelled as `Int`
  (the spec declares them signed 64-bit, and the engine's arithmetic never
  overflows 64 bits on real traces, so unbounded integers are faithful).
* Python dict rows become structures; `type`-tagged tree dicts become the
  sum type `Node` (the spec itself suggests this representation, section 9).
* The SQLite event store is the external Event Access API (out of scope per
  the spec); engine functions are embedded as functions of the row lists
  the queries return, and the guarantees provided by the SQL (`ORDER BY
  start`, `[end] > start` filters) appear as hypotheses on those lists.
* Python float arithmetic on millisecond/percentage outputs is modelled by
  exact rational arithmetic, with `round(x, d)` modelled as rounding to the
  nearest multiple of `10^-d`.
-/

namespace NsysTui

set_option maxRecDepth 8192

/-- A GPU kernel row, as returned by `Profile.kernels` / `Profile.kernel_map`
(`profile.py`): shortName string, demangled name, start/end timestamps and
stream id.  The field `stop` embeds the Python key `end` (a Lean keyword). -/
structure Kernel where
  name : String
  demangled : String
  start : Int
  stop : Int
  stream : Int
  deriving DecidableEq, Repr

/-- Python's `str.lower()` as a character list (the engine only feeds it
ASCII kernel names, for which `Char.toLower` agrees with Python). -/
def pyLower (s : String) : List Char := s.toList.map Char.toLower

/-- Executable substring search: Python's `sub in s` on strings. -/
def subSearch (needle hay : List Char) : Bool :=
  match hay with
  | [] => needle.isEmpty
  | _ :: t => needle.isPrefixOf hay || subSearch needle t

/-- `NCCL_TYPES` from `overlap.py`, an insertion-ordered dict embedded as an
ordered association list; iteration order is insertion order. -/
def NCCL_TYPES : List (String × String) :=
  [("AllGather", "allgather"), ("ReduceScatter", "reducescatter"),
   ("AllReduce", "allreduce"), ("Broadcast", "broadcast"),
   ("SendRecv", "sendrecv"), ("Reduce", "reduce")]

/-- `classify_kernel` from `overlap.py`: 'compute', 'nccl_<type>' for the
first matching collective pattern in `NCCL_TYPES` order, or 'nccl_other'. -/
def classify_kernel (name : String) : String :=
  if subSearch "nccl".toList (pyLower name) then
    match NCCL_TYPES.find? (fun kv => subSearch (pyLower kv.1) (pyLower name)) with
    | some kv => "nccl_" ++ kv.2
    | none => "nccl_other"
  else "compute"

/-- A `(start, end)` interval as the Python code passes them around. -/
abbrev Iv := Int × Int

/-- Lexicographic comparison of 2-tuples: the order Python's `sorted` uses
on `(start, end)` pairs. -/
def ivLe (a b : Iv) : Prop := a.1 < b.1 ∨ (a.1 = b.1 ∧ a.2 ≤ b.2)

instance : DecidableRel ivLe := fun a b => by unfold ivLe; infer_instance

instance : IsTotal Iv ivLe :=
  ⟨by intro a b; unfold ivLe; omega⟩

instance : IsTrans Iv ivLe :=
  ⟨by intro a b c; unfold ivLe; omega⟩

/-- The fold of `_merge_intervals`: `cur` is the trailing element
`merged[-1]`, the only element the Python loop ever rewrites; committed
elements are emitted in front. -/
def mergeLoop : Iv → List Iv → List Iv
  | cur, [] => [cur]
  | cur, (s, e) :: rest =>
      if s ≤ cur.2 then mergeLoop (cur.1, max cur.2 e) rest
      else cur :: mergeLoop (s, e) rest

/-- `_merge_intervals` from `overlap.py`: sort (Python's stable sort over
tuple order), then fold adjacent/overlapping intervals.  Python's timsort is
stable, so a stable insertion sort is a faithful model. -/
def merge_intervals (l : List Iv) : List Iv :=
  match List.insertionSort ivLe l with
  | [] => []
  | x :: xs => mergeLoop x xs

/-- `_total_covered` from `overlap.py`. -/
def total_covered (merged : List Iv) : Int :=
  (merged.map (fun p => p.2 - p.1)).sum

/-- Inner loop of `_intersection_coverage`: walk `b` while
`b[k][0] < a_end`, accumulating the positive pairwise overlaps. -/
def innerSum (a : Iv) : List Iv → Int
  | [] => 0
  | (bs, be) :: rest =>
      if bs < a.2 then
        (if max a.1 bs < min a.2 be then min a.2 be - max a.1 bs else 0)
          + innerSum a rest
      else 0

/-- Outer loop of `_intersection_coverage`: the persistent index `j` is
modelled by the suffix of `b` surviving
`while j < len(b) and b[j][1] <= a_start: j += 1`. -/
def interAux : List Iv → List Iv → Int
  | [], _ => 0
  | a :: arest, b =>
      let b' := b.dropWhile (fun q => q.2 ≤ a.1)
      innerSum a b' + interAux arest b'

/-- `_intersection_coverage` from `overlap.py`. -/
def intersection_coverage (a b : List Iv) : Int :=
  if a = [] ∨ b = [] then 0 else interAux a b

/-! ### Semantics of the interval helpers

`pts l` is the set of integer nanosecond ticks covered by the intervals of
`l` (a tick `x` is covered by `(s, e)` when `s ≤ x < e`); it is the measure
underlying all the coverage arithmetic below. -/

/-- Integer ticks covered by a list of half-open intervals. -/
def pts : List Iv → Finset ℤ
  | [] => ∅
  | p :: l => Finset.Ico p.1 p.2 ∪ pts l

/-- Merged interval lists are separated: consecutive intervals have a gap. -/
def Sep (l : List Iv) : Prop := l.Chain' (fun p q => p.2 < q.1)

/-- Every interval is well-formed (`end ≥ start`). -/
def ValidIvs (l : List Iv) : Prop := ∀ p ∈ l, p.1 ≤ p.2

/-- The positive overlap of a single pair of intervals, as computed inside
the `_intersection_coverage` inner loop. -/
def posOv (a q : Iv) : Int :=
  if max a.1 q.1 < min a.2 q.2 then min a.2 q.2 - max a.1 q.1 else 0

/-- Python's `round(x, 1)`: rounding to the nearest tenth, modelled on exact
rationals (floats only differ on ties, which the claims do not exercise). -/
def round1 (x : ℚ) : ℚ := ((round (10 * x) : ℤ) : ℚ) / 10

/-- Python's `round(x, 2)`. -/
def round2 (x : ℚ) : ℚ := ((round (100 * x) : ℤ) : ℚ) / 100

/-- Python's `round(x, 3)`. -/
def round3 (x : ℚ) : ℚ := ((round (1000 * x) : ℤ) : ℚ) / 1000

/-- `str.startswith`. -/
def startswith (p s : String) : Bool := p.toList.isPrefixOf s.toList

/-- Python `min` over a nonempty list (the `[]` case never occurs where the
code calls it). -/
def pyMin : List Int → Int
  | [] => 0
  | x :: xs => xs.foldl min x

/-- Python `max` over a nonempty list. -/
def pyMax : List Int → Int
  | [] => 0
  | x :: xs => xs.foldl max x

/-- The nanosecond-level overlap report.  The code formats these quantities
to milliseconds (`round(x/1e6, 2)`) for display; `idle_ns` carries the
clamped value `max(0, idle_ns)` exactly as reported. -/
structure OverlapReport where
  compute_only_ns : Int
  nccl_only_ns : Int
  overlap_ns : Int
  idle_ns : Int
  total_ns : Int
  overlap_pct : ℚ
  compute_kernels : Nat
  nccl_kernels : Nat
  deriving DecidableEq, Repr

/-- `overlap_analysis` returns either the `{"error": "no kernels"}` dict or
a report. -/
inductive OverlapOutcome where
  | err (msg : String)
  | ok (r : OverlapReport)
  deriving DecidableEq, Repr

/-- The NCCL side of the kernel partition in `overlap_analysis`:
`classify_kernel(name).startswith("nccl_")`. -/
def isNcclClass (name : String) : Bool := startswith "nccl_" (classify_kernel name)

/-- Compute-category intervals of a kernel list (`overlap_analysis` loop). -/
def computeIntervals (kernels : List Kernel) : List Iv :=
  (kernels.filter (fun k => !(isNcclClass k.name))).map (fun k => (k.start, k.stop))

/-- NCCL-category intervals of a kernel list (`overlap_analysis` loop). -/
def ncclIntervals (kernels : List Kernel) : List Iv :=
  (kernels.filter (fun k => isNcclClass k.name)).map (fun k => (k.start, k.stop))

/-- Local `span_start` of `overlap_analysis`: `min(k["start"] ...)`. -/
def spanStart (kernels : List Kernel) : Int := pyMin (kernels.map (·.start))

/-- Local `span_end` of `overlap_analysis`: `max(k["end"] ...)`. -/
def spanEnd (kernels : List Kernel) : Int := pyMax (kernels.map (·.stop))

/-- Local `total_ns` of `overlap_analysis`. -/
def totalNs (kernels : List Kernel) : Int := spanEnd kernels - spanStart kernels

/-- Local `compute_ns` of `overlap_analysis`. -/
def computeNs (kernels : List Kernel) : Int :=
  total_covered (merge_intervals (computeIntervals kernels))

/-- Local `nccl_ns` of `overlap_analysis`. -/
def ncclNs (kernels : List Kernel) : Int :=
  total_covered (merge_intervals (ncclIntervals kernels))

/-- Local `overlap_ns` of `overlap_analysis`. -/
def overlapNs (kernels : List Kernel) : Int :=
  intersection_coverage (merge_intervals (computeIntervals kernels))
    (merge_intervals (ncclIntervals kernels))

/-- `overlap_analysis` from `overlap.py`, at nanosecond precision.  The
input list stands for `prof.kernels(device, trim)`; the Python locals are
the named definitions above. -/
def overlap_analysis (kernels : List Kernel) : OverlapOutcome :=
  if kernels = [] then .err "no kernels" else
  .ok { compute_only_ns := computeNs kernels - overlapNs kernels
        nccl_only_ns := ncclNs kernels - overlapNs kernels
        overlap_ns := overlapNs kernels
        idle_ns := max 0 (totalNs kernels - (computeNs kernels - overlapNs kernels)
          - (ncclNs kernels - overlapNs kernels) - overlapNs kernels)
        total_ns := totalNs kernels
        overlap_pct := if ncclNs kernels ≠ 0 then
            round1 (100 * (overlapNs kernels : ℚ) / (ncclNs kernels : ℚ)) else 0
        compute_kernels := (computeIntervals kernels).length
        nccl_kernels := (ncclIntervals kernels).length }

/-- Python's `round(x, 4)`. -/
def round4 (x : ℚ) : ℚ := ((round (10000 * x) : ℤ) : ℚ) / 10000

/-- One row of the collective breakdown. -/
structure BreakdownRow where
  type : String
  count : Nat
  total_ms : ℚ
  avg_ms : ℚ
  min_ms : ℚ
  max_ms : ℚ
  pct : ℚ
  deriving DecidableEq, Repr

/-- Append a duration to its type's bucket, preserving the first-occurrence
bucket order of Python's `defaultdict(list)`. -/
def addToGroup : List (String × List Int) → String → Int → List (String × List Int)
  | [], t, d => [(t, [d])]
  | (t', ds) :: rest, t, d =>
      if t' = t then (t', ds ++ [d]) :: rest else (t', ds) :: addToGroup rest t d

/-- `by_type` of `nccl_breakdown`: group durations by classified type. -/
def groupByType (l : List (String × Int)) : List (String × List Int) :=
  l.foldl (fun acc td => addToGroup acc td.1 td.2) []

/-- `nccl_breakdown` from `overlap.py` (this and the next two definitions;
the locals `nccl_kernels` and `total_nccl_ns` are named definitions).  The
input stands for `prof.kernels(device, trim)`.  Python's
`round(100 * total / total_nccl_ns, 1)` raises `ZeroDivisionError` when the
total collective duration is zero and at least one collective kernel
exists; that exceptional outcome is the `.error` branch. -/
def ncclKernelsOf (kernels : List Kernel) : List Kernel :=
  kernels.filter (fun k => isNcclClass k.name)

/-- Local `total_nccl_ns` of `nccl_breakdown`. -/
def totalNcclNs (kernels : List Kernel) : Int :=
  ((ncclKernelsOf kernels).map (fun k => k.stop - k.start)).sum

/-- `nccl_breakdown` body (see the comment above `ncclKernelsOf`). -/
def nccl_breakdown (kernels : List Kernel) : Except String (List BreakdownRow) :=
  if ncclKernelsOf kernels = [] then .ok [] else
  if totalNcclNs kernels = 0 then .error "ZeroDivisionError" else
  .ok ((List.insertionSort
      (fun a b : String × List Int => b.2.sum ≤ a.2.sum)
      (groupByType ((ncclKernelsOf kernels).map
        (fun k => (classify_kernel k.name, k.stop - k.start))))).map
    (fun g =>
      { type := (g.1).replace "nccl_" ""
        count := g.2.length
        total_ms := round2 ((g.2.sum : ℚ) / 1000000)
        avg_ms := round3 ((g.2.sum : ℚ) / (g.2.length : ℚ) / 1000000)
        min_ms := round3 ((pyMin g.2 : ℚ) / 1000000)
        max_ms := round3 ((pyMax g.2 : ℚ) / 1000000)
        pct := round1 (100 * (g.2.sum : ℚ) / (totalNcclNs kernels : ℚ)) }))

/-! ## Iteration detection (`overlap.py`) -/

/-- A `CUPTI_ACTIVITY_KIND_RUNTIME` row (of one CPU thread). -/
structure RT where
  start : Int
  stop : Int
  corr : Int
  deriving DecidableEq, Repr

/-- An `NVTX_EVENTS` row without thread id (primary-thread queries). -/
structure NvtxRow where
  text : String
  start : Int
  stop : Int
  deriving DecidableEq, Repr

/-- `kmap.get(correlationId)`: lookup in the `kernel_map` association list
(`correlationId` keys are unique, dict semantics). -/
def lookupK (kmap : List (Int × Kernel)) (c : Int) : Option Kernel :=
  (kmap.find? (fun p => p.1 = c)).map (·.2)

/-- The greedy non-overlap filter of `detect_iterations`: `last_end` starts
at 0 and a marker is kept only when its start is at least `last_end`. -/
def keepGo : Int → List NvtxRow → List NvtxRow
  | _, [] => []
  | lastEnd, n :: rest =>
      if lastEnd ≤ n.start then n :: keepGo n.stop rest
      else keepGo lastEnd rest

/-- `iterations` of `detect_iterations`: the kept top-level markers. -/
def keepTopLevel (rows : List NvtxRow) : List NvtxRow := keepGo 0 rows

/-- `kernels_in_iter` of `detect_iterations` (also the correlation loop of
`project_nvtx` and `build_nvtx_tree`): scan the start-ordered runtime rows,
breaking at `start > cpu_end`, keeping rows inside the CPU interval, and
resolving them through the kernel map. -/
def kernelsInIter (kmap : List (Int × Kernel)) (rt_all : List RT)
    (cs ce : Int) : List Kernel :=
  ((rt_all.takeWhile (fun rt => decide (rt.start ≤ ce))).filter
    (fun rt => decide (cs ≤ rt.start) && decide (rt.stop ≤ ce))).filterMap
    (fun rt => lookupK kmap rt.corr)

/-- One detected iteration. -/
structure IterRow where
  iteration : Nat
  gpu_start_s : ℚ
  gpu_end_s : ℚ
  duration_ms : ℚ
  compute_ms : ℚ
  kernel_count : Nat
  nccl_count : Nat
  deriving DecidableEq, Repr

/-- The `results` loop of `detect_iterations`: iterations with zero
correlated kernels are dropped (`continue`). -/
def detectResults (kmap : List (Int × Kernel)) (rt_all : List RT)
    (iterations : List NvtxRow) : List IterRow :=
  iterations.enum.filterMap (fun p =>
    let ks := kernelsInIter kmap rt_all p.2.start p.2.stop
    if ks = [] then none else
    some { iteration := p.1
           gpu_start_s := round4 ((pyMin (ks.map (·.start)) : ℚ) / 1000000000)
           gpu_end_s := round4 ((pyMax (ks.map (·.stop)) : ℚ) / 1000000000)
           duration_ms := round2 (((pyMax (ks.map (·.stop))
             - pyMin (ks.map (·.start)) : Int) : ℚ) / 1000000)
           compute_ms := round2 ((((ks.map (fun k => k.stop - k.start)).sum : Int) : ℚ) / 1000000)
           kernel_count := ks.length
           nccl_count := (ks.filter (fun k =>
             subSearch "nccl".toList (pyLower k.name))).length })

/-- `detect_iterations` from `overlap.py`.  `kmap` stands for
`prof.kernel_map(device)`, `pri_nvtx` for the primary thread's marker rows
(start-ordered, `[end] > start` filtered by the SQL), `rt_all` for the
primary thread's runtime rows. -/
def detect_iterations (kmap : List (Int × Kernel)) (pri_nvtx : List NvtxRow)
    (rt_all : List RT) : List IterRow :=
  if kmap = [] then [] else
  if keepTopLevel pri_nvtx = [] then [] else
  detectResults kmap rt_all (keepTopLevel pri_nvtx)

/-- An `NVTX_EVENTS` row with its thread id, as `Profile.nvtx_events`
returns them (non-NULL text, `[end] > start`, ordered by start). -/
structure NvtxTidRow where
  text : String
  tid : Int
  start : Int
  stop : Int
  deriving DecidableEq, Repr

/-- `while stk and stk[-1] <= start: stk.pop()` on a descending stack:
popping from the tail removes the trailing elements `≤ start`. -/
def popEnds (stk : List Int) (s : Int) : List Int :=
  (stk.reverse.dropWhile (fun x => decide (x ≤ s))).reverse

/-- The reverse comparison used by `stk.sort(reverse=True)`. -/
def geInt (a b : Int) : Prop := b ≤ a

instance : DecidableRel geInt := fun a b => by unfold geInt; infer_instance

instance : IsTotal Int geInt := ⟨by intro a b; unfold geInt; omega⟩

instance : IsTrans Int geInt := ⟨by intro a b c; unfold geInt; omega⟩

/-- `stk.sort(reverse=True)` (a stable sort, like Python's). -/
def sortDescInt (l : List Int) : List Int :=
  List.insertionSort geInt l

/-- `_compute_depth` from `projection.py`, acting on one thread's stack of
open end-times: pop closed scopes, read the depth, push the new end-time,
restore descending order.  Returns `(depth, updated stack)`. -/
def compute_depth (stk : List Int) (s e : Int) : Nat × List Int :=
  let stk' := popEnds stk s
  (stk'.length, sortDescInt (stk' ++ [e]))

/-- One emitted row of the Projector's flat output. -/
structure ProjRow where
  name : String
  start : Int
  stop : Int
  depth : Nat
  projected : Bool
  deriving DecidableEq, Repr

/-- The loop of `project_nvtx`: `stacks` is the per-thread dict of open
end-time stacks (a missing key reads as the empty stack, matching
`if tid not in stacks: stacks[tid] = []`). -/
def projGo (kmap : List (Int × Kernel)) (rt_idx : Int → List RT)
    (trim : Int × Int) (stks : Int → List Int) :
    List NvtxTidRow → List ProjRow
  | [] => []
  | n :: rest =>
    if n.text = "" then projGo kmap rt_idx trim stks rest else
    if kernelsInIter kmap (rt_idx n.tid) n.start n.stop = [] then
      (if trim.1 ≤ n.stop ∧ n.start ≤ trim.2 then
        [⟨n.text, n.start, n.stop,
          (compute_depth (stks n.tid) n.start n.stop).1, false⟩] else [])
        ++ projGo kmap rt_idx trim
          (fun t => if t = n.tid then
            (compute_depth (stks n.tid) n.start n.stop).2 else stks t) rest
    else
      (if trim.1 ≤ pyMax ((kernelsInIter kmap (rt_idx n.tid) n.start n.stop).map (·.stop))
          ∧ pyMin ((kernelsInIter kmap (rt_idx n.tid) n.start n.stop).map (·.start)) ≤ trim.2 then
        [⟨n.text, pyMin ((kernelsInIter kmap (rt_idx n.tid) n.start n.stop).map (·.start)),
          pyMax ((kernelsInIter kmap (rt_idx n.tid) n.start n.stop).map (·.stop)),
          (compute_depth (stks n.tid) n.start n.stop).1, true⟩]
       else [])
        ++ projGo kmap rt_idx trim
          (fun t => if t = n.tid then
            (compute_depth (stks n.tid) n.start n.stop).2 else stks t) rest

/-- `project_nvtx` from `projection.py`.  `kmap` stands for
`prof.kernel_map(device)`, `rt_idx` for `prof.runtime_index(threads, ...)`
(each thread's runtime rows in start order) and `nvtx` for
`prof.nvtx_events(threads, ...)`. -/
def project_nvtx (kmap : List (Int × Kernel)) (rt_idx : Int → List RT)
    (nvtx : List NvtxTidRow) (trim : Int × Int) : List ProjRow :=
  if kmap = [] then [] else projGo kmap rt_idx trim (fun _ => []) nvtx

/-- The per-thread depth sequence: folding `_compute_depth` over one
thread's `(start, end)` scope intervals in processing order.  In
`project_nvtx`, `stacks[tid]` is read and written only by rows of that
thread, so a thread's depth sequence is exactly this fold. -/
def depthsGo (stk : List Int) : List Iv → List Nat
  | [] => []
  | q :: rest =>
      (compute_depth stk q.1 q.2).1 :: depthsGo (compute_depth stk q.1 q.2).2 rest

/-- Closed-form depth sequence: the depth of a scope is the number of
previously processed scopes on the thread whose end-time exceeds its
start. -/
def canonDepths (done : List Iv) : List Iv → List Nat
  | [] => []
  | q :: rest =>
      ((done.map Prod.snd).countP (fun x => decide (q.1 < x)))
        :: canonDepths (done ++ [q]) rest

/-- The stack-discipline invariant of the spec's data model: any two scopes
of one thread are nested or disjoint, never partially overlapping. -/
def NestedOrDisjoint (a b : Iv) : Prop :=
  a.2 ≤ b.1 ∨ b.2 ≤ a.1 ∨ (a.1 ≤ b.1 ∧ b.2 ≤ a.2) ∨ (b.1 ≤ a.1 ∧ a.2 ≤ b.2)

instance (a b : Iv) : Decidable (NestedOrDisjoint a b) := by
  unfold NestedOrDisjoint; infer_instance

/-- A tree node: the `type`-tagged dicts of `tree.py` become a sum type
(the spec's own suggested representation).  `scope` is a `type="nvtx"`
node; `leaf` is a `type="kernel"` node, whose `children` list is always
empty. -/
inductive Node where
  | scope (name : String) (start stop : Int) (children : List Node)
  | leaf (name demangled : String) (start stop : Int) (stream : Int)

/-- `node["type"] == "nvtx"`. -/
def isScopeNode : Node → Bool
  | .scope .. => true
  | .leaf .. => false

/-- `nvtx_children` of a children list. -/
def nvtxChildren (children : List Node) : List Node :=
  children.filter isScopeNode

/-- `kern_children` of a children list. -/
def kernChildren (children : List Node) : List Node :=
  children.filter (fun c => !isScopeNode c)

/-- `node["name"]`. -/
def nodeName : Node → String
  | .scope n .. => n
  | .leaf n .. => n

/-- The `duration_ms` value `to_json` attaches to a node
(`round((end - start) / 1e6, 3)`), which the analyzer reads back. -/
def durationMs (start stop : Int) : ℚ :=
  round3 (((stop - start : Int) : ℚ) / 1000000)

/-- One refinement target of `find_refinement_targets`; `note` is present
exactly on the "mixed" targets. -/
structure Target where
  name : String
  depth : Nat
  duration_ms : ℚ
  kernel_count : Nat
  kernels : List String
  note : Option String
  deriving DecidableEq, Repr

/-- `_walk` from `ai/analyzer.py`.  Python recurses into the scope-children
sublist; since the loop body itself skips `type != "nvtx"` nodes, walking
the full child list with the same guard yields the identical target list. -/
def walkTargets (maxKernels : Nat) (depth : Nat) : List Node → List Target
  | [] => []
  | .leaf _ _ _ _ _ :: rest => walkTargets maxKernels depth rest
  | .scope nm s e ch :: rest =>
      (if (nvtxChildren ch).isEmpty ∧ maxKernels < (kernChildren ch).length then
        [⟨nm, depth, durationMs s e, (kernChildren ch).length,
          (kernChildren ch).map nodeName, none⟩] else [])
      ++ (if ¬ (nvtxChildren ch).isEmpty ∧ maxKernels < (kernChildren ch).length then
        [⟨nm, depth, durationMs s e, (kernChildren ch).length,
          (kernChildren ch).map nodeName,
          some "mixed: has both NVTX sub-ranges and uncovered kernels"⟩] else [])
      ++ walkTargets maxKernels (depth + 1) ch
      ++ walkTargets maxKernels depth rest

/-- The descending-kernel-count comparison of `find_refinement_targets`'s
`sorted(targets, key=lambda t: -t["kernel_count"])`. -/
def targetGe (a b : Target) : Prop := b.kernel_count ≤ a.kernel_count

instance : DecidableRel targetGe := fun a b => by unfold targetGe; infer_instance

instance : IsTotal Target targetGe := ⟨by intro a b; unfold targetGe; omega⟩

instance : IsTrans Target targetGe := ⟨by intro a b c; unfold targetGe; omega⟩

/-- `find_refinement_targets` from `ai/analyzer.py`: collect, then sort by
descending kernel count with Python's stable sort (timsort is stable, so a
stable insertion sort is a faithful model). -/
def find_refinement_targets (tree_roots : List Node) (maxKernels : Nat := 1) :
    List Target :=
  List.insertionSort targetGe (walkTargets maxKernels 0 tree_roots)

/-- The `stats` dict threaded through `_convergence_walk`. -/
structure ConvStats where
  total_nvtx : Nat
  converged : Nat
  unconverged : Nat
  mapped : Nat
  unmapped : Nat
  deriving DecidableEq, Repr

/-- Pointwise addition of stats contributions. -/
def addC (a b : ConvStats) : ConvStats :=
  ⟨a.total_nvtx + b.total_nvtx, a.converged + b.converged,
   a.unconverged + b.unconverged, a.mapped + b.mapped, a.unmapped + b.unmapped⟩

/-- `_convergence_walk` from `ai/analyzer.py` (same child-list convention
as `walkTargets`): all counter increments of the Python in-place walk,
gathered as a sum. -/
def convStats : List Node → ConvStats
  | [] => ⟨0, 0, 0, 0, 0⟩
  | .leaf _ _ _ _ _ :: rest => convStats rest
  | .scope _ _ _ ch :: rest =>
      addC (addC
        ⟨1,
         if (nvtxChildren ch).isEmpty ∧ (kernChildren ch).length = 1 then 1 else 0,
         if (nvtxChildren ch).isEmpty ∧ 1 < (kernChildren ch).length then 1 else 0,
         if (nvtxChildren ch).isEmpty ∧ (kernChildren ch).length = 1 then 1 else 0,
         if (nvtxChildren ch).isEmpty ∧ 1 < (kernChildren ch).length then
           (kernChildren ch).length else 0⟩
        (convStats ch)) (convStats rest)

/-- The aggregate report of `convergence_report`. -/
structure ConvergenceReport where
  total_nvtx : Nat
  total_kernels : Nat
  converged_nvtx : Nat
  unconverged_nvtx : Nat
  coverage_pct : ℚ
  mapped_kernels : Nat
  unmapped_kernels : Nat
  deriving DecidableEq, Repr

/-- `convergence_report` from `ai/analyzer.py`: `total_kernels` is the
local `total = mapped + unmapped`. -/
def convergence_report (tree_roots : List Node) : ConvergenceReport :=
  { total_nvtx := (convStats tree_roots).total_nvtx
    total_kernels := (convStats tree_roots).mapped + (convStats tree_roots).unmapped
    converged_nvtx := (convStats tree_roots).converged
    unconverged_nvtx := (convStats tree_roots).unconverged
    coverage_pct :=
      if (convStats tree_roots).mapped + (convStats tree_roots).unmapped ≠ 0 then
        round1 (100 * ((convStats tree_roots).mapped : ℚ)
          / (((convStats tree_roots).mapped + (convStats tree_roots).unmapped : Nat) : ℚ))
      else 0
    mapped_kernels := (convStats tree_roots).mapped
    unmapped_kernels := (convStats tree_roots).unmapped }

/-- Scope-node occurrence at walk depth `d` within a forest: a root of the
forest, or a child of a scope occurring one level up (`_walk` recurses into
children with `depth + 1`). -/
inductive ScopeIn : List Node → Nat → Node → Prop where
  | root {F : List Node} {n : Node} : n ∈ F → ScopeIn F 0 n
  | child {F : List Node} {d : Nat} {nm : String} {s e : Int} {ch : List Node}
      {m : Node} : ScopeIn F d (.scope nm s e ch) → m ∈ ch → ScopeIn F (d + 1) m

/-- Descending-count comparison for `ORDER BY cnt DESC`. -/
def cntGe (a b : Int × Nat) : Prop := b.2 ≤ a.2

instance : DecidableRel cntGe := fun a b => by unfold cntGe; infer_instance

instance : IsTotal (Int × Nat) cntGe := ⟨by intro a b; unfold cntGe; omega⟩

instance : IsTrans (Int × Nat) cntGe := ⟨by intro a b c; unfold cntGe; omega⟩

/-- `_find_primary_thread` from `tree.py`.  `groups` lists the SQL `GROUP
BY globalTid` rows `(globalTid, cnt)` in the order the database emits them;
`ORDER BY cnt DESC` has no secondary sort key, and SQLite leaves the
relative order of rows with equal sort keys unspecified, so equal counts
land in the unspecified emission order (modelled by a stable sort over that
order).  `LIMIT 1` takes the head; with no rows the function returns 0. -/
def find_primary_thread (groups : List (Int × Nat)) : Int :=
  match List.insertionSort cntGe groups with
  | [] => 0
  | g :: _ => g.1

/-- `node["start"]`. -/
def nodeStart : Node → Int
  | .scope _ s _ _ => s
  | .leaf _ _ s _ _ => s

/-- `node["end"]`. -/
def nodeStop : Node → Int
  | .scope _ _ e _ => e
  | .leaf _ _ _ e _ => e

/-- The `child_kernels` loop of `build_nvtx_tree`: scan the primary
thread's start-ordered runtime rows, breaking at `start > cpu_end`, keep
rows inside the scope's CPU interval, resolve through the kernel map, and
wrap each hit as a `type="kernel"` node. -/
def child_kernels (kmap : List (Int × Kernel)) (rt_rows : List RT)
    (cs ce : Int) : List Node :=
  ((rt_rows.takeWhile (fun rt => decide (rt.start ≤ ce))).filter
    (fun rt => decide (cs ≤ rt.start) && decide (rt.stop ≤ ce))).filterMap
    (fun rt => (lookupK kmap rt.corr).map
      (fun k => Node.leaf k.name k.demangled k.start k.stop k.stream))

/-- One projected entry of `build_nvtx_tree` (`entries` list): scope text,
projected GPU bounds, CPU bounds, and the correlated kernel leaves. -/
structure Entry where
  name : String
  gstart : Int
  gstop : Int
  cstart : Int
  cstop : Int
  kernels : List Node

/-- The `entries` loop of `build_nvtx_tree`: skip empty-text rows, drop
scopes with no correlated kernels, project to GPU bounds, and drop scopes
whose projected interval misses the window. -/
def mkEntries (kmap : List (Int × Kernel)) (rt_rows : List RT)
    (trim : Int × Int) (nvtx : List NvtxRow) : List Entry :=
  nvtx.filterMap (fun n =>
    if n.text = "" then none else
    if (child_kernels kmap rt_rows n.start n.stop).isEmpty then none else
    if pyMax ((child_kernels kmap rt_rows n.start n.stop).map nodeStop) < trim.1
        ∨ trim.2 < pyMin ((child_kernels kmap rt_rows n.start n.stop).map nodeStart)
      then none else
    some ⟨n.text,
      pyMin ((child_kernels kmap rt_rows n.start n.stop).map nodeStart),
      pyMax ((child_kernels kmap rt_rows n.start n.stop).map nodeStop),
      n.start, n.stop,
      child_kernels kmap rt_rows n.start n.stop⟩)

/-- Completing a stack element into its `type="nvtx"` node: the node's
children are its own kernels followed by the scope nodes nested under it
(Python attaches nested nodes by aliasing; the pure model attaches them
when the element is popped, preserving order). -/
def finalizeE (e : Entry) (kids : List Node) : Node :=
  Node.scope e.name e.gstart e.gstop (e.kernels ++ kids)

/-- `while stack and stack[-1]["cpu_end"] <= entry["cpu_start"]`: pop the
closed stack elements, attaching each completed node to the element below
it (or to `roots` when the stack empties). -/
def popCommitted (cs : Int) :
    List (Entry × List Node) → List Node → List (Entry × List Node) × List Node
  | [], roots => ([], roots)
  | [(f, kids)], roots =>
      if f.cstop ≤ cs then ([], roots ++ [finalizeE f kids])
      else ([(f, kids)], roots)
  | (f, kids) :: (g, gk) :: rest, roots =>
      if f.cstop ≤ cs then
        popCommitted cs ((g, gk ++ [finalizeE f kids]) :: rest) roots
      else ((f, kids) :: (g, gk) :: rest, roots)
  termination_by st _ => st.length

/-- One iteration of the `for entry in entries` loop: pop the closed
elements, then push the new entry with no nested children yet. -/
def buildStep (st : List (Entry × List Node) × List Node) (e : Entry) :
    List (Entry × List Node) × List Node :=
  ((e, []) :: (popCommitted e.cstart st.1 st.2).1,
   (popCommitted e.cstart st.1 st.2).2)

/-- Completing the run: Python needs no final pass because nodes were
attached by aliasing at push time; the pure model flushes the remaining
stack, which yields the identical forest. -/
def flushAll : List (Entry × List Node) → List Node → List Node
  | [], roots => roots
  | [(f, kids)], roots => roots ++ [finalizeE f kids]
  | (f, kids) :: (g, gk) :: rest, roots =>
      flushAll ((g, gk ++ [finalizeE f kids]) :: rest) roots
  termination_by st _ => st.length

/-- `_collect_kernel_starts`: all kernel start-times at any depth below the
given child list. -/
def collectKernelStarts : List Node → List Int
  | [] => []
  | .leaf _ _ s _ _ :: rest => s :: collectKernelStarts rest
  | .scope _ _ _ ch :: rest => collectKernelStarts ch ++ collectKernelStarts rest

/-- `_deduplicate_kernels`: drop from a child list every kernel leaf whose
start is claimed by the enclosing scope's deeper NVTX descendants, and
recurse into scope children with their own claimed sets.  Python filters a
node's children in place and then recurses over the filtered list; one pass
with the claimed set of the enclosing scope is the same transformation.
The top-level call uses the empty claimed set (roots are never filtered). -/
def dedupKernels (claimed : List Int) : List Node → List Node
  | [] => []
  | .leaf n d s e st :: rest =>
      if s ∈ claimed then dedupKernels claimed rest
      else .leaf n d s e st :: dedupKernels claimed rest
  | .scope nm s e ch :: rest =>
      .scope nm s e (dedupKernels (collectKernelStarts (nvtxChildren ch)) ch)
        :: dedupKernels claimed rest

/-- Key order of `_sort_children` (`key=lambda c: c["start"]`; `list.sort`
is stable). -/
def nodeLe (a b : Node) : Prop := nodeStart a ≤ nodeStart b

instance : DecidableRel nodeLe := fun a b => by unfold nodeLe; infer_instance

/-- `_sort_children` on a single node: sort its children by start and
recurse into them.  (Python sorts first and then recurses; recursing first
and sorting after is the same list, since the recursion rewrites each child
in place and preserves every `start` key the stable sort compares.) -/
def sortNode : Node → Node
  | .leaf n d s e st => .leaf n d s e st
  | .scope nm s e ch =>
      .scope nm s e (List.insertionSort nodeLe
        (ch.attach.map (fun c => sortNode c.1)))
  termination_by n => sizeOf n
  decreasing_by
    have := List.sizeOf_lt_of_mem c.2
    simp only [Node.scope.sizeOf_spec]
    omega

/-- `build_nvtx_tree` from `tree.py`.  `kmap` stands for
`prof.kernel_map(device)`; `rt_rows` and `nvtx` for the primary thread's
runtime and NVTX rows (both start-ordered by the SQL, NVTX rows non-NULL
text with `[end] > start`); primary-thread selection and the SQL loads are
the Event Access boundary. -/
def build_nvtx_tree (kmap : List (Int × Kernel)) (rt_rows : List RT)
    (nvtx : List NvtxRow) (trim : Int × Int) : List Node :=
  if kmap = [] then [] else
  (dedupKernels []
    (flushAll ((mkEntries kmap rt_rows trim nvtx).foldl buildStep ([], [])).1
      ((mkEntries kmap rt_rows trim nvtx).foldl buildStep ([], [])).2)).map sortNode

/-- A kernel leaf with start `t` occurs somewhere in the forest. -/
def hasLeafT (t : Int) : List Node → Bool
  | [] => false
  | .leaf _ _ s _ _ :: rest => decide (s = t) || hasLeafT t rest
  | .scope _ _ _ ch :: rest => hasLeafT t ch || hasLeafT t rest

/-- A scope "lists" a kernel with start `t`: a leaf with that start is
among its direct children. -/
def listsT (t : Int) (ch : List Node) : Bool :=
  ch.any (fun c => match c with
    | .leaf _ _ s _ _ => decide (s = t)
    | .scope _ _ _ _ => false)

/-- The number of scope nodes anywhere in the forest listing a kernel with
start `t` among their direct children.  Leaf exclusivity for identity `t`
is `listersCount t F ≤ 1`. -/
def listersCount (t : Int) : List Node → Nat
  | [] => 0
  | .leaf _ _ _ _ _ :: rest => listersCount t rest
  | .scope _ _ _ ch :: rest =>
      (if listsT t ch then 1 else 0) + listersCount t ch + listersCount t rest

/-- The number of top-level scope trees of the forest whose subtree
contains a kernel leaf with start `t`. -/
def scopeTreesWithT (t : Int) : List Node → Nat
  | [] => 0
  | .leaf _ _ _ _ _ :: rest => scopeTreesWithT t rest
  | .scope _ _ _ ch :: rest =>
      (if hasLeafT t ch then 1 else 0) + scopeTreesWithT t rest

/-- At every node of the forest, at most one scope-child subtree contains a
kernel leaf with start `t` (direct leaves are unconstrained). -/
def SepInner (t : Int) : List Node → Prop
  | [] => True
  | .leaf _ _ _ _ _ :: rest => SepInner t rest
  | .scope _ _ _ ch :: rest =>
      (scopeTreesWithT t ch ≤ 1 ∧ SepInner t ch) ∧ SepInner t rest

/-- The chain property: the scopes claiming `t` all sit on one path. -/
def SepT (t : Int) (F : List Node) : Prop :=
  scopeTreesWithT t F ≤ 1 ∧ SepInner t F

/-- Only kernel leaves (the shape of every entry's `kernels` list). -/
def AllLeaves (L : List Node) : Prop := ∀ n ∈ L, isScopeNode n = false

/-- A stack element "carries" `t`: among its entry's own kernels or among
the completed subtrees already nested under it. -/
def stackT (t : Int) (s : Entry × List Node) : Prop :=
  hasLeafT t s.1.kernels = true ∨ hasLeafT t s.2 = true

/-- The invariant of the stack construction, for a fixed kernel start `t`:
the completed parts are `t`-separated, `t` can live at several stack levels
only in entry kernels (which end up on one path), and once `t` is closed
into a finished subtree no later entry may touch `t` again. -/
structure BuildInv (t : Int) (σ : List (Entry × List Node) × List Node)
    (rem : List Entry) : Prop where
  roots_sep : SepT t σ.2
  kids_sep : ∀ s ∈ σ.1, SepT t s.2
  chain : σ.1.Pairwise (fun up low => stackT t up → hasLeafT t low.2 = false)
  no_root_t : (∃ s ∈ σ.1, stackT t s) → scopeTreesWithT t σ.2 = 0
  no_future : (1 ≤ scopeTreesWithT t σ.2 ∨ ∃ s ∈ σ.1, hasLeafT t s.2 = true) →
      ∀ f ∈ rem, hasLeafT t f.kernels = false
  stack_rem : ∀ s ∈ σ.1, ∀ f ∈ rem, hasLeafT t s.1.kernels = true →
      hasLeafT t f.kernels = true → f.cstart < s.1.cstop
  stack_leaves : ∀ s ∈ σ.1, AllLeaves s.1.kernels

/-- The contribution of one node to `listersCount`. -/
def listerW (t : Int) : Node → Nat
  | .leaf _ _ _ _ _ => 0
  | .scope _ _ _ ch => (if listsT t ch then 1 else 0) + listersCount t ch

theorem subSearch_iff (n h : List Char) : subSearch n h = true ↔ n <:+: h := by
  induction h with
  | nil => simp [subSearch, List.isEmpty_iff]
  | cons a t ih =>
    simp only [subSearch, Bool.or_eq_true, ih]
    constructor
    · rintro (hp | hs)
      · exact (List.isPrefixOf_iff_prefix.mp hp).isInfix
      · exact List.infix_cons hs
    · intro hi
      rcases hi with ⟨s, t2, he⟩
      cases s with
      | nil => left; exact List.isPrefixOf_iff_prefix.mpr ⟨t2, by simpa using he⟩
      | cons b s' =>
        right
        cases he
        exact ⟨s', t2, rfl⟩

theorem classify_of_not_nccl (name : String)
    (h : ¬ ("nccl".toList <:+: pyLower name)) :
    classify_kernel name = "compute" := by
  unfold classify_kernel
  rw [if_neg]
  rw [subSearch_iff]
  exact h

theorem classify_of_no_pattern (name : String)
    (h : ("nccl".toList <:+: pyLower name))
    (h2 : ∀ kv ∈ NCCL_TYPES, ¬ (pyLower kv.1 <:+: pyLower name)) :
    classify_kernel name = "nccl_other" := by
  unfold classify_kernel
  rw [if_pos]
  · rw [List.find?_eq_none.mpr]
    intro kv hkv
    simpa [subSearch_iff] using h2 kv hkv
  · simpa [subSearch_iff] using h

/-- If a lower-cased name contains "allreduce" but neither "allgather" nor
"reducescatter", classification returns the AllReduce tag: the patterns are
tested in the fixed priority order of `NCCL_TYPES`, so the more specific
patterns win over the trailing "Reduce" pattern. -/
theorem classify_allreduce_priority (name : String)
    (h0 : ("nccl".toList <:+: pyLower name))
    (h1 : ("allreduce".toList <:+: pyLower name))
    (h2 : ¬ ("allgather".toList <:+: pyLower name))
    (h3 : ¬ ("reducescatter".toList <:+: pyLower name)) :
    classify_kernel name = "nccl_allreduce" := by
  unfold classify_kernel
  rw [if_pos]
  · have hfind : NCCL_TYPES.find? (fun kv => subSearch (pyLower kv.1) (pyLower name))
        = some ("AllReduce", "allreduce") := by
      have e2 : subSearch (pyLower "AllGather") (pyLower name) = false := by
        rw [Bool.eq_false_iff, Ne, subSearch_iff]
        exact fun hc => h2 (by simpa [pyLower] using hc)
      have e3 : subSearch (pyLower "ReduceScatter") (pyLower name) = false := by
        rw [Bool.eq_false_iff, Ne, subSearch_iff]
        exact fun hc => h3 (by simpa [pyLower] using hc)
      have e1 : subSearch (pyLower "AllReduce") (pyLower name) = true := by
        rw [subSearch_iff]
        simpa [pyLower] using h1
      simp only [NCCL_TYPES, List.find?, e1, e2, e3]
    rw [hfind]
    rfl
  · simpa [subSearch_iff] using h0

/-- Claim C4: classification is Compute without "nccl" (case-insensitive),
otherwise the first matching collective pattern in the fixed priority order,
CollectiveOther when none matches; `classify("ncclAllReduce_sum")` is
AllReduce, not Reduce. -/
theorem C4_classify_kernel :
    (∀ name, ¬ ("nccl".toList <:+: pyLower name) →
      classify_kernel name = "compute") ∧
    (∀ name, ("nccl".toList <:+: pyLower name) →
      (∀ kv ∈ NCCL_TYPES, ¬ (pyLower kv.1 <:+: pyLower name)) →
      classify_kernel name = "nccl_other") ∧
    (∀ name, ("nccl".toList <:+: pyLower name) →
      ("allreduce".toList <:+: pyLower name) →
      ¬ ("allgather".toList <:+: pyLower name) →
      ¬ ("reducescatter".toList <:+: pyLower name) →
      classify_kernel name = "nccl_allreduce") ∧
    classify_kernel "ncclAllReduce_sum" = "nccl_allreduce" ∧
    classify_kernel "ncclAllReduce_sum" ≠ "nccl_reduce" := by
  refine ⟨classify_of_not_nccl, classify_of_no_pattern,
    classify_allreduce_priority, by decide, by decide⟩

/-- Witness for C4: hypotheses of the universally quantified conjuncts are
discharged at concrete kernel names. -/
theorem C4_classify_kernel_witness :
    classify_kernel "gemm_fp16" = "compute" ∧
    classify_kernel "ncclDevKernel_mystery" = "nccl_other" ∧
    classify_kernel "ncclAllReduce_sum" = "nccl_allreduce" :=
  ⟨C4_classify_kernel.1 "gemm_fp16" (by decide),
   C4_classify_kernel.2.1 "ncclDevKernel_mystery" (by decide) (by decide),
   C4_classify_kernel.2.2.1 "ncclAllReduce_sum" (by decide) (by decide)
     (by decide) (by decide)⟩

/-! ## Interval math helpers (`overlap.py`, bottom section) -/

theorem mem_pts {x : ℤ} : ∀ {l : List Iv}, x ∈ pts l ↔ ∃ p ∈ l, p.1 ≤ x ∧ x < p.2
  | [] => by simp [pts]
  | p :: l => by
    simp [pts, Finset.mem_Ico, Finset.mem_union, @mem_pts x l]

theorem sep_all {p : Iv} : ∀ {l : List Iv}, Sep (p :: l) → ValidIvs l →
    ∀ q ∈ l, p.2 < q.1
  | [], _, _ => by simp
  | q :: l, hs, hv => by
    rw [Sep, List.chain'_cons] at hs
    intro r hr
    rcases List.mem_cons.mp hr with rfl | hr
    · exact hs.1
    · have hq : q.1 ≤ q.2 := hv q (List.mem_cons_self ..)
      have := sep_all (p := q) hs.2 (fun x hx => hv x (List.mem_cons_of_mem _ hx)) r hr
      omega

theorem covered_eq_card : ∀ {l : List Iv}, Sep l → ValidIvs l →
    total_covered l = ((pts l).card : Int)
  | [], _, _ => by simp [total_covered, pts]
  | p :: l, hs, hv => by
    have hsl : Sep l := (List.chain'_cons'.mp hs).2
    have hvl : ValidIvs l := fun x hx => hv x (List.mem_cons_of_mem _ hx)
    have hdisj : Disjoint (Finset.Ico p.1 p.2) (pts l) := by
      rw [Finset.disjoint_left]
      intro x hx hx2
      rcases mem_pts.mp hx2 with ⟨q, hq, hq1, hq2⟩
      have := sep_all hs hvl q hq
      simp only [Finset.mem_Ico] at hx
      omega
    have hcard : (pts (p :: l)).card = (Finset.Ico p.1 p.2).card + (pts l).card := by
      rw [pts, Finset.card_union_of_disjoint hdisj]
    have hp : p.1 ≤ p.2 := hv p (List.mem_cons_self ..)
    have hico : ((Finset.Ico p.1 p.2).card : Int) = p.2 - p.1 := by
      rw [Int.card_Ico, Int.toNat_of_nonneg (by omega)]
    calc total_covered (p :: l) = (p.2 - p.1) + total_covered l := by
          simp [total_covered]
      _ = ((Finset.Ico p.1 p.2).card : Int) + ((pts l).card : Int) := by
          rw [covered_eq_card hsl hvl, hico]
      _ = ((pts (p :: l)).card : Int) := by rw [hcard]; push_cast; ring

theorem mergeLoop_head : ∀ (t : List Iv) (cur : Iv),
    ∃ e rest, mergeLoop cur t = (cur.1, e) :: rest ∧ cur.2 ≤ e
  | [], cur => ⟨cur.2, [], rfl, le_refl _⟩
  | (s, e) :: rest, cur => by
    rw [mergeLoop]
    by_cases h : s ≤ cur.2
    · rw [if_pos h]
      rcases mergeLoop_head rest (cur.1, max cur.2 e) with ⟨e', r', he, hle⟩
      exact ⟨e', r', he, le_trans (le_max_left _ _) hle⟩
    · rw [if_neg h]
      exact ⟨cur.2, mergeLoop (s, e) rest, rfl, le_refl _⟩

theorem mergeLoop_sep : ∀ (t : List Iv) (cur : Iv),
    cur.1 ≤ cur.2 → (∀ p ∈ t, cur.1 ≤ p.1 ∧ p.1 ≤ p.2) →
    t.Pairwise (fun p q : Iv => p.1 ≤ q.1) →
    Sep (mergeLoop cur t) ∧ ValidIvs (mergeLoop cur t)
  | [], cur, hc, _, _ => by
    constructor
    · exact List.chain'_singleton _
    · intro p hp
      rw [mergeLoop, List.mem_singleton] at hp
      exact hp ▸ hc
  | (s, e) :: rest, cur, hc, ht, hp => by
    rw [mergeLoop]
    have hrest : ∀ q ∈ rest, s ≤ q.1 ∧ q.1 ≤ q.2 := by
      intro q hq
      refine ⟨List.rel_of_pairwise_cons hp hq, (ht q (List.mem_cons_of_mem _ hq)).2⟩
    by_cases h : s ≤ cur.2
    · rw [if_pos h]
      refine mergeLoop_sep rest (cur.1, max cur.2 e) (by simp; omega) ?_ hp.of_cons
      intro q hq
      have h1 := (ht (s, e) (List.mem_cons_self ..)).1
      have := hrest q hq
      constructor <;> omega
    · rw [if_neg h]
      have hse := ht (s, e) (List.mem_cons_self ..)
      rcases mergeLoop_sep rest (s, e) hse.2 hrest hp.of_cons with ⟨hs2, hv2⟩
      rcases mergeLoop_head rest (s, e) with ⟨e', r', heq, _⟩
      constructor
      · rw [Sep, heq, List.chain'_cons]
        exact ⟨by simp; omega, heq ▸ hs2⟩
      · intro q hq
        rcases List.mem_cons.mp hq with rfl | hq
        · exact hc
        · exact hv2 q hq

theorem mergeLoop_pts : ∀ (t : List Iv) (cur : Iv),
    (∀ p ∈ t, cur.1 ≤ p.1) →
    t.Pairwise (fun p q : Iv => p.1 ≤ q.1) →
    pts (mergeLoop cur t) = pts (cur :: t)
  | [], cur, _, _ => by simp [mergeLoop]
  | (s, e) :: rest, cur, ht, hp => by
    rw [mergeLoop]
    have h1 : cur.1 ≤ s := ht (s, e) (List.mem_cons_self ..)
    by_cases h : s ≤ cur.2
    · rw [if_pos h]
      rw [mergeLoop_pts rest (cur.1, max cur.2 e)
        (fun p hpm => (ht p (List.mem_cons_of_mem _ hpm))) hp.of_cons]
      show Finset.Ico cur.1 (max cur.2 e) ∪ pts rest
        = Finset.Ico cur.1 cur.2 ∪ (Finset.Ico s e ∪ pts rest)
      have : Finset.Ico cur.1 (max cur.2 e)
          = Finset.Ico cur.1 cur.2 ∪ Finset.Ico s e := by
        ext x
        simp only [Finset.mem_Ico, Finset.mem_union]
        omega
      rw [this, Finset.union_assoc]
    · rw [if_neg h]
      show Finset.Ico cur.1 cur.2 ∪ pts (mergeLoop (s, e) rest) = _
      rw [mergeLoop_pts rest (s, e)
        (fun p hpm => List.rel_of_pairwise_cons hp hpm) hp.of_cons]
      rfl

/-- `_merge_intervals` is sound: on well-formed input it yields a separated,
well-formed interval list covering exactly the same ticks. -/
theorem merge_intervals_spec (l : List Iv) (hv : ValidIvs l) :
    Sep (merge_intervals l) ∧ ValidIvs (merge_intervals l) ∧
      pts (merge_intervals l) = pts l := by
  have hperm : (List.insertionSort ivLe l).Perm l := List.perm_insertionSort ivLe l
  have hsorted : (List.insertionSort ivLe l).Pairwise ivLe :=
    List.sorted_insertionSort ivLe l
  have hvs : ValidIvs (List.insertionSort ivLe l) :=
    fun p hp => hv p (hperm.mem_iff.mp hp)
  have hpts : pts (List.insertionSort ivLe l) = pts l := by
    ext x
    rw [mem_pts, mem_pts]
    constructor
    · rintro ⟨p, hp, h1, h2⟩; exact ⟨p, hperm.mem_iff.mp hp, h1, h2⟩
    · rintro ⟨p, hp, h1, h2⟩; exact ⟨p, hperm.mem_iff.mpr hp, h1, h2⟩
  unfold merge_intervals
  rcases hs : List.insertionSort ivLe l with _ | ⟨x, xs⟩
  · refine ⟨List.chain'_nil, by intro p hp; simp at hp, ?_⟩
    rw [← hpts, hs]
  · rw [hs] at hsorted hvs hpts
    have hxs : xs.Pairwise (fun p q : Iv => p.1 ≤ q.1) := by
      refine hsorted.of_cons.imp ?_
      intro a b hab
      rcases hab with h | ⟨h, _⟩ <;> omega
    have hxstart : ∀ p ∈ xs, x.1 ≤ p.1 ∧ p.1 ≤ p.2 := by
      intro p hp
      have := List.rel_of_pairwise_cons hsorted hp
      have hv2 := hvs p (List.mem_cons_of_mem _ hp)
      rcases this with h | ⟨h, _⟩ <;> exact ⟨by omega, hv2⟩
    rcases mergeLoop_sep xs x (hvs x (List.mem_cons_self ..)) hxstart hxs
      with ⟨h1, h2⟩
    refine ⟨h1, h2, ?_⟩
    rw [mergeLoop_pts xs x (fun p hp => (hxstart p hp).1) hxs, hpts]

theorem posOv_eq_card (a q : Iv) :
    posOv a q = ((Finset.Ico a.1 a.2 ∩ Finset.Ico q.1 q.2).card : Int) := by
  rw [Finset.Ico_inter_Ico]
  rw [posOv]
  by_cases h : max a.1 q.1 < min a.2 q.2
  · rw [if_pos h, Int.card_Ico]
    rw [Int.toNat_of_nonneg (by omega)]
  · rw [if_neg h, Int.card_Ico]
    have hz : (a.2 ⊓ q.2 - a.1 ⊔ q.1).toNat = 0 := by
      rw [Int.toNat_eq_zero]
      omega
    rw [hz]; rfl

theorem innerSum_eq (a : Iv) : ∀ (b : List Iv),
    b.Pairwise (fun p q : Iv => p.1 ≤ q.1) →
    innerSum a b = (b.map (posOv a)).sum
  | [], _ => rfl
  | (bs, be) :: rest, hp => by
    rw [innerSum]
    by_cases h : bs < a.2
    · rw [if_pos h, innerSum_eq a rest hp.of_cons]
      simp only [List.map_cons, List.sum_cons, posOv]
    · rw [if_neg h]
      have : ∀ q ∈ (bs, be) :: rest, posOv a q = 0 := by
        intro q hq
        have hq1 : bs ≤ q.1 := by
          rcases List.mem_cons.mp hq with rfl | hq
          · exact le_refl _
          · exact List.rel_of_pairwise_cons hp hq
        rw [posOv, if_neg (by omega)]
      rw [List.sum_eq_zero]
      intro x hx
      rcases List.mem_map.mp hx with ⟨q, hq, rfl⟩
      exact this q hq

theorem interAux_eq : ∀ (a : List Iv) (b : List Iv),
    a.Pairwise (fun p q : Iv => p.1 ≤ q.1) →
    b.Pairwise (fun p q : Iv => p.1 ≤ q.1) →
    interAux a b = (a.map (fun p => (b.map (posOv p)).sum)).sum
  | [], _, _, _ => by simp [interAux]
  | p :: arest, b, hpa, hpb => by
    rw [interAux]
    have hsplit : b.takeWhile (fun q : Iv => decide (q.2 ≤ p.1))
        ++ b.dropWhile (fun q : Iv => decide (q.2 ≤ p.1)) = b :=
      List.takeWhile_append_dropWhile ..
    have hdrop_pairwise : (b.dropWhile (fun q : Iv => decide (q.2 ≤ p.1))).Pairwise
        (fun p q : Iv => p.1 ≤ q.1) :=
      hpb.sublist (List.dropWhile_sublist _)
    have hdropped : ∀ q ∈ b.takeWhile (fun q : Iv => decide (q.2 ≤ p.1)), q.2 ≤ p.1 := by
      intro q hq
      simpa using List.mem_takeWhile_imp hq
    have hzero : ∀ (r : Iv), p.1 ≤ r.1 →
        (b.map (posOv r)).sum
          = ((b.dropWhile (fun q : Iv => decide (q.2 ≤ p.1))).map (posOv r)).sum := by
      intro r hr
      conv_lhs => rw [← hsplit]
      rw [List.map_append, List.sum_append]
      have : ((b.takeWhile (fun q : Iv => decide (q.2 ≤ p.1))).map (posOv r)).sum = 0 := by
        rw [List.sum_eq_zero]
        intro x hx
        rcases List.mem_map.mp hx with ⟨q, hq, rfl⟩
        have := hdropped q hq
        rw [posOv, if_neg (by omega)]
      rw [this, zero_add]
    rw [innerSum_eq p _ hdrop_pairwise,
      interAux_eq arest _ hpa.of_cons hdrop_pairwise]
    simp only [List.map_cons, List.sum_cons]
    rw [← hzero p (le_refl _)]
    congr 1
    refine congrArg List.sum (List.map_congr_left ?_)
    intro r hr
    exact (hzero r (List.rel_of_pairwise_cons hpa hr)).symm

theorem sum_posOv_eq_card (p : Iv) : ∀ (b : List Iv), Sep b → ValidIvs b →
    (b.map (posOv p)).sum = ((Finset.Ico p.1 p.2 ∩ pts b).card : Int)
  | [], _, _ => by simp [pts]
  | q :: rest, hs, hv => by
    have hsl : Sep rest := (List.chain'_cons'.mp hs).2
    have hvl : ValidIvs rest := fun x hx => hv x (List.mem_cons_of_mem _ hx)
    have hdisj : Disjoint (Finset.Ico p.1 p.2 ∩ Finset.Ico q.1 q.2)
        (Finset.Ico p.1 p.2 ∩ pts rest) := by
      rw [Finset.disjoint_left]
      intro x hx hx2
      rcases Finset.mem_inter.mp hx with ⟨_, hxq⟩
      rcases Finset.mem_inter.mp hx2 with ⟨_, hxr⟩
      rcases mem_pts.mp hxr with ⟨r, hr, hr1, hr2⟩
      have := sep_all hs hvl r hr
      simp only [Finset.mem_Ico] at hxq
      omega
    have hunion : Finset.Ico p.1 p.2 ∩ pts (q :: rest)
        = (Finset.Ico p.1 p.2 ∩ Finset.Ico q.1 q.2)
          ∪ (Finset.Ico p.1 p.2 ∩ pts rest) := by
      rw [pts, Finset.inter_union_distrib_left]
    rw [List.map_cons, List.sum_cons, posOv_eq_card,
      sum_posOv_eq_card p rest hsl hvl, hunion,
      Finset.card_union_of_disjoint hdisj]
    push_cast
    ring

theorem double_sum_eq_card : ∀ (a : List Iv) (b : List Iv),
    Sep a → ValidIvs a → Sep b → ValidIvs b →
    (a.map (fun p => (b.map (posOv p)).sum)).sum = ((pts a ∩ pts b).card : Int)
  | [], _, _, _, _, _ => by simp [pts]
  | p :: arest, b, hsa, hva, hsb, hvb => by
    have hsl : Sep arest := (List.chain'_cons'.mp hsa).2
    have hvl : ValidIvs arest := fun x hx => hva x (List.mem_cons_of_mem _ hx)
    have hdisj : Disjoint (Finset.Ico p.1 p.2 ∩ pts b) (pts arest ∩ pts b) := by
      rw [Finset.disjoint_left]
      intro x hx hx2
      rcases Finset.mem_inter.mp hx with ⟨hxp, _⟩
      rcases Finset.mem_inter.mp hx2 with ⟨hxa, _⟩
      rcases mem_pts.mp hxa with ⟨r, hr, hr1, hr2⟩
      have := sep_all hsa hvl r hr
      simp only [Finset.mem_Ico] at hxp
      omega
    have hunion : pts (p :: arest) ∩ pts b
        = (Finset.Ico p.1 p.2 ∩ pts b) ∪ (pts arest ∩ pts b) := by
      rw [pts, Finset.union_inter_distrib_right]
    rw [List.map_cons, List.sum_cons, sum_posOv_eq_card p b hsb hvb,
      double_sum_eq_card arest b hsl hvl hsb hvb, hunion,
      Finset.card_union_of_disjoint hdisj]
    push_cast
    ring

theorem interAux_nil_right : ∀ (a : List Iv), interAux a [] = 0
  | [] => rfl
  | p :: arest => by
    rw [interAux]
    simp only [List.dropWhile_nil]
    rw [interAux_nil_right arest, innerSum]
    rfl

/-- `_intersection_coverage` computes exactly the number of ticks covered by
both separated interval lists. -/
theorem intersection_coverage_eq_card (a b : List Iv)
    (hsa : Sep a) (hva : ValidIvs a) (hsb : Sep b) (hvb : ValidIvs b) :
    intersection_coverage a b = ((pts a ∩ pts b).card : Int) := by
  have hpair : ∀ (l : List Iv), Sep l → ValidIvs l →
      l.Pairwise (fun p q : Iv => p.1 ≤ q.1) := by
    intro l hs hv
    induction l with
    | nil => exact List.Pairwise.nil
    | cons p rest ih =>
      have hsl : Sep rest := (List.chain'_cons'.mp hs).2
      have hvl : ValidIvs rest := fun x hx => hv x (List.mem_cons_of_mem _ hx)
      refine List.Pairwise.cons ?_ (ih hsl hvl)
      intro q hq
      have h1 := sep_all hs hvl q hq
      have h2 := hv p (List.mem_cons_self ..)
      omega
  unfold intersection_coverage
  by_cases h : a = [] ∨ b = []
  · rw [if_pos h]
    rcases h with rfl | rfl
    · simp [pts]
    · simp [pts]
  · rw [if_neg h]
    rw [interAux_eq a b (hpair a hsa hva) (hpair b hsb hvb),
      double_sum_eq_card a b hsa hva hsb hvb]

/-! ## Compute/communication overlap analysis (`overlap.py`) -/

theorem foldl_min_le : ∀ (l : List Int) (acc x : Int), (x ∈ l ∨ x = acc) →
    l.foldl min acc ≤ x
  | [], _, x, hx => by
    rcases hx with h | rfl
    · simp at h
    · simp
  | a :: t, acc, x, hx => by
    rw [List.foldl_cons]
    rcases hx with h | rfl
    · rcases List.mem_cons.mp h with rfl | h
      · have := foldl_min_le t (min acc x) (min acc x) (Or.inr rfl)
        omega
      · exact foldl_min_le t (min acc a) x (Or.inl h)
    · have := foldl_min_le t (min x a) (min x a) (Or.inr rfl)
      omega

theorem le_foldl_max : ∀ (l : List Int) (acc x : Int), (x ∈ l ∨ x = acc) →
    x ≤ l.foldl max acc
  | [], _, x, hx => by
    rcases hx with h | rfl
    · simp at h
    · simp
  | a :: t, acc, x, hx => by
    rw [List.foldl_cons]
    rcases hx with h | rfl
    · rcases List.mem_cons.mp h with rfl | h
      · have := le_foldl_max t (max acc x) (max acc x) (Or.inr rfl)
        omega
      · exact le_foldl_max t (max acc a) x (Or.inl h)
    · have := le_foldl_max t (max x a) (max x a) (Or.inr rfl)
      omega

theorem pyMin_le {l : List Int} {x : Int} (hx : x ∈ l) : pyMin l ≤ x := by
  cases l with
  | nil => simp at hx
  | cons a t =>
    rw [pyMin]
    rcases List.mem_cons.mp hx with rfl | h
    · exact foldl_min_le t x x (Or.inr rfl)
    · exact foldl_min_le t a x (Or.inl h)

theorem le_pyMax {l : List Int} {x : Int} (hx : x ∈ l) : x ≤ pyMax l := by
  cases l with
  | nil => simp at hx
  | cons a t =>
    rw [pyMax]
    rcases List.mem_cons.mp hx with rfl | h
    · exact le_foldl_max t x x (Or.inr rfl)
    · exact le_foldl_max t a x (Or.inl h)

theorem filtmap_ivs (kernels : List Kernel)
    (hv : ∀ k ∈ kernels, k.start ≤ k.stop) (f : Kernel → Bool) :
    ∀ p ∈ (kernels.filter f).map (fun k => ((k.start, k.stop) : Iv)),
      pyMin (kernels.map (·.start)) ≤ p.1 ∧ p.2 ≤ pyMax (kernels.map (·.stop))
        ∧ p.1 ≤ p.2 := by
  intro p hp
  rcases List.mem_map.mp hp with ⟨k, hk, rfl⟩
  have hkm : k ∈ kernels := (List.mem_filter.mp hk).1
  refine ⟨pyMin_le (List.mem_map.mpr ⟨k, hkm, rfl⟩),
    le_pyMax (List.mem_map.mpr ⟨k, hkm, rfl⟩), hv k hkm⟩

/-- Claim C1: for a device/window with at least one kernel, the reported
quantities satisfy `compute_only_ns + comm_only_ns + overlap_ns + idle_ns =
total_ns` after clamping (the code clamps only `idle_ns`, and idle is in
fact provably nonnegative, so the clamp is the identity), and `overlap_ns`
is at most each of the covered durations of the merged compute and
collective interval sets.  `nccl_only_ns` is the code's name for the spec's
`comm_only_ns`. -/
theorem C1_overlap_partition (kernels : List Kernel)
    (hne : kernels ≠ [])
    (hv : ∀ k ∈ kernels, k.start ≤ k.stop) :
    ∃ r, overlap_analysis kernels = .ok r ∧
      r.compute_only_ns + r.nccl_only_ns + r.overlap_ns + r.idle_ns = r.total_ns ∧
      r.overlap_ns ≤ total_covered (merge_intervals (computeIntervals kernels)) ∧
      r.overlap_ns ≤ total_covered (merge_intervals (ncclIntervals kernels)) := by
  have hvc : ValidIvs (computeIntervals kernels) := by
    intro p hp
    exact (filtmap_ivs kernels hv _ p hp).2.2
  have hvn : ValidIvs (ncclIntervals kernels) := by
    intro p hp
    exact (filtmap_ivs kernels hv _ p hp).2.2
  rcases merge_intervals_spec (computeIntervals kernels) hvc with ⟨hsA, hvA, hpA⟩
  rcases merge_intervals_spec (ncclIntervals kernels) hvn with ⟨hsB, hvB, hpB⟩
  have hCcard : computeNs kernels
      = ((pts (merge_intervals (computeIntervals kernels))).card : Int) :=
    covered_eq_card hsA hvA
  have hNcard : ncclNs kernels
      = ((pts (merge_intervals (ncclIntervals kernels))).card : Int) :=
    covered_eq_card hsB hvB
  have hVcard : overlapNs kernels
      = ((pts (merge_intervals (computeIntervals kernels))
          ∩ pts (merge_intervals (ncclIntervals kernels))).card : Int) :=
    intersection_coverage_eq_card _ _ hsA hvA hsB hvB
  -- the points of both categories stay inside the span
  have hsub : pts (merge_intervals (computeIntervals kernels))
      ∪ pts (merge_intervals (ncclIntervals kernels))
      ⊆ Finset.Ico (spanStart kernels) (spanEnd kernels) := by
    intro x hx
    rw [Finset.mem_Ico, spanStart, spanEnd]
    rcases Finset.mem_union.mp hx with hx | hx
    · rw [hpA] at hx
      rcases mem_pts.mp hx with ⟨p, hp, h1, h2⟩
      have := filtmap_ivs kernels hv _ p hp
      exact ⟨by have := this.1; omega, by have := this.2.1; omega⟩
    · rw [hpB] at hx
      rcases mem_pts.mp hx with ⟨p, hp, h1, h2⟩
      have := filtmap_ivs kernels hv _ p hp
      exact ⟨by have := this.1; omega, by have := this.2.1; omega⟩
  have hspan : spanStart kernels ≤ spanEnd kernels := by
    rcases List.exists_mem_of_ne_nil kernels hne with ⟨k0, hk0⟩
    have h1 : spanStart kernels ≤ k0.start :=
      pyMin_le (List.mem_map.mpr ⟨k0, hk0, rfl⟩)
    have h2 : k0.stop ≤ spanEnd kernels :=
      le_pyMax (List.mem_map.mpr ⟨k0, hk0, rfl⟩)
    have := hv k0 hk0
    omega
  have hcard_union : (((pts (merge_intervals (computeIntervals kernels))
      ∪ pts (merge_intervals (ncclIntervals kernels))).card : Int))
      ≤ spanEnd kernels - spanStart kernels := by
    have h1 := Finset.card_le_card hsub
    have h2 : ((Finset.Ico (spanStart kernels) (spanEnd kernels)).card : Int)
        = spanEnd kernels - spanStart kernels := by
      rw [Int.card_Ico, Int.toNat_of_nonneg (by omega)]
    omega
  have hie := Finset.card_union_add_card_inter
    (pts (merge_intervals (computeIntervals kernels)))
    (pts (merge_intervals (ncclIntervals kernels)))
  have hieZ : (((pts (merge_intervals (computeIntervals kernels))
        ∪ pts (merge_intervals (ncclIntervals kernels))).card : Int))
      + (((pts (merge_intervals (computeIntervals kernels))
        ∩ pts (merge_intervals (ncclIntervals kernels))).card : Int))
      = ((pts (merge_intervals (computeIntervals kernels))).card : Int)
        + ((pts (merge_intervals (ncclIntervals kernels))).card : Int) := by
    exact_mod_cast congrArg (Nat.cast : Nat → Int) hie
  have hVC : overlapNs kernels ≤ computeNs kernels := by
    rw [hVcard, hCcard]
    exact_mod_cast Finset.card_le_card (Finset.inter_subset_left)
  have hVN : overlapNs kernels ≤ ncclNs kernels := by
    rw [hVcard, hNcard]
    exact_mod_cast Finset.card_le_card (Finset.inter_subset_right)
  have hidle : 0 ≤ totalNs kernels - (computeNs kernels - overlapNs kernels)
      - (ncclNs kernels - overlapNs kernels) - overlapNs kernels := by
    rw [totalNs, hCcard, hNcard, hVcard]
    omega
  refine ⟨_, by rw [overlap_analysis, if_neg hne], ?_, hVC, hVN⟩
  show computeNs kernels - overlapNs kernels + (ncclNs kernels - overlapNs kernels)
      + overlapNs kernels
      + max 0 (totalNs kernels - (computeNs kernels - overlapNs kernels)
        - (ncclNs kernels - overlapNs kernels) - overlapNs kernels)
      = totalNs kernels
  rw [max_eq_right hidle]
  ring

/-- Witness for C1, at the worked scenario of spec section 8: three compute
kernels `[0,10],[10,20],[25,30]` and one collective `[5,15]`. -/
theorem C1_overlap_partition_witness :
    ∃ r, overlap_analysis
        [⟨"gemm_a", "", 0, 10, 7⟩, ⟨"gemm_b", "", 10, 20, 7⟩,
         ⟨"ncclAllReduce_sum", "", 5, 15, 3⟩, ⟨"gemm_c", "", 25, 30, 7⟩] = .ok r ∧
      r.compute_only_ns + r.nccl_only_ns + r.overlap_ns + r.idle_ns = r.total_ns ∧
      r.overlap_ns ≤ total_covered (merge_intervals (computeIntervals
        [⟨"gemm_a", "", 0, 10, 7⟩, ⟨"gemm_b", "", 10, 20, 7⟩,
         ⟨"ncclAllReduce_sum", "", 5, 15, 3⟩, ⟨"gemm_c", "", 25, 30, 7⟩])) ∧
      r.overlap_ns ≤ total_covered (merge_intervals (ncclIntervals
        [⟨"gemm_a", "", 0, 10, 7⟩, ⟨"gemm_b", "", 10, 20, 7⟩,
         ⟨"ncclAllReduce_sum", "", 5, 15, 3⟩, ⟨"gemm_c", "", 25, 30, 7⟩])) :=
  C1_overlap_partition _ (by decide) (by decide)

/-! ## NCCL collective breakdown (`overlap.py`) -/

theorem keepGo_start_ge : ∀ (rows : List NvtxRow) (le0 : Int),
    (∀ n ∈ rows, n.start < n.stop) →
    ∀ m ∈ keepGo le0 rows, le0 ≤ m.start
  | [], _, _, m, hm => by simp [keepGo] at hm
  | n :: rest, le0, hpos, m, hm => by
    rw [keepGo] at hm
    by_cases h : le0 ≤ n.start
    · rw [if_pos h] at hm
      rcases List.mem_cons.mp hm with rfl | hm
      · exact h
      · have := keepGo_start_ge rest n.stop
          (fun x hx => hpos x (List.mem_cons_of_mem _ hx)) m hm
        have := hpos n (List.mem_cons_self ..)
        omega
    · rw [if_neg h] at hm
      exact keepGo_start_ge rest le0
        (fun x hx => hpos x (List.mem_cons_of_mem _ hx)) m hm

theorem keepGo_chain : ∀ (rows : List NvtxRow) (le0 : Int),
    (∀ n ∈ rows, n.start < n.stop) →
    (keepGo le0 rows).Chain' (fun a b => a.stop ≤ b.start)
  | [], _, _ => List.chain'_nil
  | n :: rest, le0, hpos => by
    rw [keepGo]
    have hrest : ∀ x ∈ rest, x.start < x.stop :=
      fun x hx => hpos x (List.mem_cons_of_mem _ hx)
    by_cases h : le0 ≤ n.start
    · rw [if_pos h]
      rw [List.chain'_cons']
      refine ⟨?_, keepGo_chain rest n.stop hrest⟩
      intro y hy
      have hm : y ∈ keepGo n.stop rest := List.mem_of_mem_head? hy
      exact keepGo_start_ge rest n.stop hrest y hm
    · rw [if_neg h]
      exact keepGo_chain rest le0 hrest

theorem keepGo_sublist : ∀ (rows : List NvtxRow) (le0 : Int),
    (keepGo le0 rows).Sublist rows
  | [], _ => List.Sublist.refl _
  | n :: rest, le0 => by
    rw [keepGo]
    by_cases h : le0 ≤ n.start
    · rw [if_pos h]
      exact (keepGo_sublist rest n.stop).cons₂ n
    · rw [if_neg h]
      exact (keepGo_sublist rest le0).cons n

/-- Claim C10: the iteration filter keeps a marker only when its start is at
least the previously kept marker's end, starting from the fixed threshold 0
(not the window start); hence every kept marker has a nonnegative start, and
a trace whose markers all carry negative trace-local timestamps yields no
iterations at all even when they are non-overlapping and have kernels. -/
theorem C10_iteration_threshold (rows : List NvtxRow)
    (hpos : ∀ n ∈ rows, n.start < n.stop) :
    (keepTopLevel rows).Sublist rows ∧
    (keepTopLevel rows).Chain' (fun a b => a.stop ≤ b.start) ∧
    (∀ m ∈ keepTopLevel rows, 0 ≤ m.start) ∧
    detect_iterations [(1, ⟨"k", "k", 5, 9, 0⟩)]
      [⟨"sample_0", -100, -50⟩, ⟨"sample_0", -40, -10⟩] [⟨-90, -80, 1⟩] = [] := by
  refine ⟨keepGo_sublist rows 0, keepGo_chain rows 0 hpos,
    keepGo_start_ge rows 0 hpos, by decide⟩

/-- Witness for C10 on a concrete marker list with positive durations. -/
theorem C10_iteration_threshold_witness :
    (keepTopLevel [⟨"sample_0", -100, -50⟩, ⟨"sample_0", 3, 7⟩]).Sublist
      [⟨"sample_0", -100, -50⟩, ⟨"sample_0", 3, 7⟩] ∧
    (keepTopLevel [⟨"sample_0", -100, -50⟩, ⟨"sample_0", 3, 7⟩]).Chain'
      (fun a b => a.stop ≤ b.start) ∧
    (∀ m ∈ keepTopLevel [⟨"sample_0", -100, -50⟩, ⟨"sample_0", 3, 7⟩], 0 ≤ m.start) ∧
    detect_iterations [(1, ⟨"k", "k", 5, 9, 0⟩)]
      [⟨"sample_0", -100, -50⟩, ⟨"sample_0", -40, -10⟩] [⟨-90, -80, 1⟩] = [] :=
  C10_iteration_threshold _ (by decide)

/-! ## Annotation projection (`projection.py`) -/

theorem dropWhile_asc (s : Int) : ∀ (l : List Int), l.Pairwise (· ≤ ·) →
    l.dropWhile (fun x => decide (x ≤ s)) = l.filter (fun x => decide (s < x))
  | [], _ => rfl
  | a :: t, hp => by
    by_cases h : a ≤ s
    · rw [List.dropWhile_cons_of_pos (by simpa using h),
        List.filter_cons_of_neg (by simpa using h)]
      exact dropWhile_asc s t hp.of_cons
    · rw [List.dropWhile_cons_of_neg (by simpa using h),
        List.filter_cons_of_pos (by simpa using h)]
      refine congrArg (a :: ·) ?_
      refine (List.filter_eq_self.mpr ?_).symm
      intro x hx
      have := List.rel_of_pairwise_cons hp hx
      simpa using by omega

theorem popEnds_desc (stk : List Int) (s : Int) (hs : stk.Pairwise geInt) :
    popEnds stk s = stk.filter (fun x => decide (s < x)) := by
  rw [popEnds, dropWhile_asc s _ ?_, ← List.filter_reverse, List.reverse_reverse]
  rw [List.pairwise_reverse]
  exact hs.imp (fun h => h)

theorem depthsGo_eq_canon : ∀ (rem : List Iv) (done : List Iv) (stk : List Int)
    (p : Int),
    stk.Pairwise geInt →
    stk.Perm ((done.map Prod.snd).filter (fun x => decide (p < x))) →
    (∀ q ∈ rem, p ≤ q.1 ∧ q.1 < q.2) →
    rem.Pairwise (fun a b : Iv => a.1 ≤ b.1) →
    depthsGo stk rem = canonDepths done rem
  | [], _, _, _, _, _, _, _ => rfl
  | q :: rest, done, stk, p, hsort, hperm, hq, hpair => by
    rw [depthsGo, canonDepths]
    have hps : p ≤ q.1 := (hq q (List.mem_cons_self ..)).1
    have hpos : q.1 < q.2 := (hq q (List.mem_cons_self ..)).2
    have hbool : ∀ x : Int, (decide (q.1 < x) && decide (p < x)) = decide (q.1 < x) := by
      intro x
      by_cases h : q.1 < x
      · simp [h, show p < x by omega]
      · simp [h]
    have hpop : popEnds stk q.1 = stk.filter (fun x => decide (q.1 < x)) :=
      popEnds_desc stk q.1 hsort
    have hperm2 : (popEnds stk q.1).Perm
        ((done.map Prod.snd).filter (fun x => decide (q.1 < x))) := by
      rw [hpop]
      have h3 := hperm.filter (fun x => decide (q.1 < x))
      rw [List.filter_filter] at h3
      refine h3.trans (List.Perm.of_eq ?_)
      exact List.filter_congr (fun x _ => hbool x)
    have hdepth : (compute_depth stk q.1 q.2).1
        = (done.map Prod.snd).countP (fun x => decide (q.1 < x)) := by
      show (popEnds stk q.1).length = _
      rw [hperm2.length_eq, List.countP_eq_length_filter]
    rw [hdepth]
    refine congrArg _ ?_
    show depthsGo (sortDescInt (popEnds stk q.1 ++ [q.2])) rest = _
    refine depthsGo_eq_canon rest (done ++ [q])
      (sortDescInt (popEnds stk q.1 ++ [q.2])) q.1
      (List.sorted_insertionSort geInt _) ?_ ?_ hpair.of_cons
    · refine (List.perm_insertionSort geInt _).trans ?_
      have he : ((done ++ [q]).map Prod.snd).filter (fun x => decide (q.1 < x))
          = (done.map Prod.snd).filter (fun x => decide (q.1 < x)) ++ [q.2] := by
        rw [List.map_append, List.filter_append]
        simp [hpos]
      rw [he]
      exact hperm2.append_right [q.2]
    · intro r hr
      exact ⟨List.rel_of_pairwise_cons hpair hr, (hq r (List.mem_cons_of_mem _ hr)).2⟩

theorem canonDepths_length : ∀ (rem done : List Iv),
    (canonDepths done rem).length = rem.length
  | [], _ => rfl
  | q :: rest, done => by
    rw [canonDepths, List.length_cons, List.length_cons,
      canonDepths_length rest (done ++ [q])]

theorem canonDepths_get : ∀ (rem done : List Iv) (i : Nat) (hi : i < rem.length),
    (canonDepths done rem).get ⟨i, by rw [canonDepths_length]; exact hi⟩
      = ((done ++ rem.take i).map Prod.snd).countP
          (fun x => decide ((rem.get ⟨i, hi⟩).1 < x))
  | q :: rest, done, 0, hi => by
    simp [canonDepths]
  | q :: rest, done, i + 1, hi => by
    show (canonDepths (done ++ [q]) rest).get
        ⟨i, by rw [canonDepths_length]; exact Nat.lt_of_succ_lt_succ hi⟩ = _
    rw [canonDepths_get rest (done ++ [q]) i (Nat.lt_of_succ_lt_succ hi)]
    have : done ++ [q] ++ rest.take i = done ++ (q :: rest).take (i + 1) := by
      rw [List.take_succ_cons, List.append_assoc]
      rfl
    rw [this]
    rfl

theorem countP_take_eq_card (l : List Iv) (c : Int) : ∀ (n : Nat), n ≤ l.length →
    ((l.take n).map Prod.snd).countP (fun x => decide (c < x))
      = ((Finset.range n).filter (fun k => c < (l.getD k (0, 0)).2)).card := by
  intro n
  induction n with
  | zero => intro _; simp
  | succ m ih =>
    intro hn
    have hm : m < l.length := Nat.lt_of_succ_le hn
    have hsome : l[m]? = some l[m] := List.getElem?_eq_getElem hm
    have htake : l.take (m + 1) = l.take m ++ [l[m]] := by
      rw [List.take_succ, hsome]
      rfl
    rw [htake, List.map_append, List.countP_append]
    rw [ih (Nat.le_of_lt hm)]
    rw [Finset.range_succ, Finset.filter_insert]
    have hgetd : l.getD m (0, 0) = l[m] := by
      rw [List.getD_eq_getElem?_getD, hsome]
      rfl
    by_cases hc : c < l[m].2
    · rw [if_pos (by rw [hgetd]; exact hc)]
      rw [Finset.card_insert_of_not_mem (by simp)]
      simp [List.countP_cons, hc]
    · rw [if_neg (by rw [hgetd]; exact hc)]
      simp [List.countP_cons, hc]

/-- The core depth-monotonicity argument: with positive-length scopes,
strictly increasing starts and the stack discipline, the closed-form depth
of a scope strictly exceeds that of any earlier scope containing it. -/
theorem canon_depth_lt (rows : List Iv)
    (hpos : ∀ q ∈ rows, q.1 < q.2)
    (hstrict : rows.Pairwise (fun a b : Iv => a.1 < b.1))
    (hdisc : rows.Pairwise NestedOrDisjoint)
    (i j : Nat) (hi : i < rows.length) (hj : j < rows.length) (hij : i < j)
    (hc1 : (rows.get ⟨i, hi⟩).1 ≤ (rows.get ⟨j, hj⟩).1)
    (hc2 : (rows.get ⟨j, hj⟩).2 ≤ (rows.get ⟨i, hi⟩).2) :
    (canonDepths [] rows).get ⟨i, by rw [canonDepths_length]; exact hi⟩
      < (canonDepths [] rows).get ⟨j, by rw [canonDepths_length]; exact hj⟩ := by
  rw [canonDepths_get rows [] i hi, canonDepths_get rows [] j hj]
  simp only [List.nil_append]
  rw [countP_take_eq_card rows _ i (Nat.le_of_lt hi),
    countP_take_eq_card rows _ j (Nat.le_of_lt hj)]
  have hgetd : ∀ (k : Nat) (hk : k < rows.length),
      rows.getD k (0, 0) = rows.get ⟨k, hk⟩ := by
    intro k hk
    rw [List.getD_eq_getElem?_getD, List.getElem?_eq_getElem hk]
    rfl
  have hposj : (rows.get ⟨j, hj⟩).1 < (rows.get ⟨j, hj⟩).2 :=
    hpos _ (List.get_mem ..)
  refine Finset.card_lt_card ?_
  rw [Finset.ssubset_iff_of_subset ?sub]
  case sub =>
    intro k hk
    rcases Finset.mem_filter.mp hk with ⟨hkr, hke⟩
    have hki : k < i := Finset.mem_range.mp hkr
    have hkl : k < rows.length := Nat.lt_trans hki hi
    rw [hgetd k hkl] at hke
    have hlt : (rows.get ⟨k, hkl⟩).1 < (rows.get ⟨i, hi⟩).1 :=
      List.pairwise_iff_get.mp hstrict ⟨k, hkl⟩ ⟨i, hi⟩ hki
    have hnd : NestedOrDisjoint (rows.get ⟨k, hkl⟩) (rows.get ⟨i, hi⟩) :=
      List.pairwise_iff_get.mp hdisc ⟨k, hkl⟩ ⟨i, hi⟩ hki
    have hposi : (rows.get ⟨i, hi⟩).1 < (rows.get ⟨i, hi⟩).2 :=
      hpos _ (List.get_mem ..)
    refine Finset.mem_filter.mpr ⟨Finset.mem_range.mpr (Nat.lt_trans hki hij), ?_⟩
    rw [hgetd k hkl]
    rcases hnd with h | h | h | h
    · omega
    · omega
    · omega
    · omega
  refine ⟨i, Finset.mem_filter.mpr ⟨Finset.mem_range.mpr hij, ?_⟩, ?_⟩
  · rw [hgetd i hi]
    omega
  · intro hmem
    exact absurd (Finset.mem_range.mp (Finset.mem_filter.mp hmem).1) (lt_irrefl i)

theorem kernelsInIter_nil (kmap : List (Int × Kernel)) (cs ce : Int) :
    kernelsInIter kmap [] cs ce = [] := rfl

/-- Over a single thread with no resolvable runtime rows, `project_nvtx`
emits every in-window scope unprojected, with the depth sequence of the
per-thread `_compute_depth` fold. -/
theorem projGo_unprojected : ∀ (rows : List NvtxTidRow) (stks : Int → List Int)
    (t0 : Int) (kmap : List (Int × Kernel)) (rt_idx : Int → List RT)
    (trim : Int × Int),
    (∀ n ∈ rows, n.tid = t0) → (∀ n ∈ rows, n.text ≠ "") →
    rt_idx t0 = [] →
    (∀ n ∈ rows, trim.1 ≤ n.stop ∧ n.start ≤ trim.2) →
    projGo kmap rt_idx trim stks rows
      = ((rows.zip (depthsGo (stks t0)
            (rows.map (fun n => ((n.start, n.stop) : Iv))))).map
          (fun nd => (⟨nd.1.text, nd.1.start, nd.1.stop, nd.2, false⟩ : ProjRow)))
  | [], _, _, _, _, _, _, _, _, _ => rfl
  | n :: rest, stks, t0, kmap, rt_idx, trim, htid, htext, hrt, htrim => by
    have ht0 : n.tid = t0 := htid n (List.mem_cons_self ..)
    have hemit : trim.1 ≤ n.stop ∧ n.start ≤ trim.2 := htrim n (List.mem_cons_self ..)
    rw [projGo]
    rw [if_neg (htext n (List.mem_cons_self ..))]
    rw [ht0, hrt, kernelsInIter_nil]
    rw [if_pos rfl, if_pos hemit]
    rw [projGo_unprojected rest _ t0 kmap rt_idx trim
      (fun x hx => htid x (List.mem_cons_of_mem _ hx))
      (fun x hx => htext x (List.mem_cons_of_mem _ hx)) hrt
      (fun x hx => htrim x (List.mem_cons_of_mem _ hx))]
    rw [List.map_cons, depthsGo, List.zip_cons_cons, List.map_cons]
    simp

theorem depthsGo_length : ∀ (l : List Iv) (stk : List Int),
    (depthsGo stk l).length = l.length
  | [], _ => rfl
  | q :: rest, stk => by
    rw [depthsGo, List.length_cons, List.length_cons,
      depthsGo_length rest _]

/-- Claim C9, amended: over a thread whose scopes have pairwise distinct
start times (besides positive length, the stack discipline and start
ordering), every emitted scope's depth is nonnegative, and an emitted
scope's depth strictly exceeds that of every earlier emitted scope of the
thread whose CPU interval contains it — in particular its immediate
CPU-containing ancestor's.  Stated over a single-thread unprojected run
(`stacks[tid]` isolates threads; depth is computed from CPU intervals
whether or not the scope projects). -/
theorem C9_depth_monotonic (t0 : Int) (kmap : List (Int × Kernel))
    (rt_idx : Int → List RT) (trim : Int × Int) (rows : List NvtxTidRow)
    (hk : kmap ≠ []) (hrt : rt_idx t0 = [])
    (htid : ∀ n ∈ rows, n.tid = t0) (htext : ∀ n ∈ rows, n.text ≠ "")
    (htrim : ∀ n ∈ rows, trim.1 ≤ n.stop ∧ n.start ≤ trim.2)
    (hpos : ∀ n ∈ rows, n.start < n.stop)
    (hstrict : rows.Pairwise (fun a b => a.start < b.start))
    (hdisc : rows.Pairwise (fun a b =>
      NestedOrDisjoint (a.start, a.stop) (b.start, b.stop))) :
    (∀ r ∈ project_nvtx kmap rt_idx rows trim, 0 ≤ (r.depth : Int)) ∧
    (project_nvtx kmap rt_idx rows trim).Pairwise
      (fun a b => a.start ≤ b.start → b.stop ≤ a.stop → a.depth < b.depth) := by
  constructor
  · intro r _
    exact Int.natCast_nonneg _
  rw [project_nvtx, if_neg hk,
    projGo_unprojected rows _ t0 kmap rt_idx trim htid htext hrt htrim]
  rw [List.pairwise_map]
  cases rows with
  | nil => simp
  | cons n0 rest0 =>
    have hds : depthsGo ((fun _ => ([] : List Int)) t0)
        ((n0 :: rest0).map (fun n => ((n.start, n.stop) : Iv)))
        = canonDepths [] ((n0 :: rest0).map (fun n => ((n.start, n.stop) : Iv))) := by
      refine depthsGo_eq_canon _ [] [] n0.start List.Pairwise.nil (by simp) ?_ ?_
      · intro q hq
        rcases List.mem_map.mp hq with ⟨m, hm, rfl⟩
        constructor
        · rcases List.mem_cons.mp hm with rfl | hm
          · exact le_refl _
          · exact le_of_lt (List.rel_of_pairwise_cons hstrict hm)
        · exact hpos m hm
      · rw [List.pairwise_map]
        exact hstrict.imp (fun h => le_of_lt h)
    rw [hds]
    rw [List.pairwise_iff_get]
    intro i j hij
    intro h1 h2
    have hlen : ((n0 :: rest0).zip (canonDepths []
        ((n0 :: rest0).map (fun n => ((n.start, n.stop) : Iv))))).length
        = (n0 :: rest0).length := by
      rw [List.length_zip, canonDepths_length, List.length_map]
      exact min_self _
    have hi : (i : Nat) < (n0 :: rest0).length := by rw [← hlen]; exact i.isLt
    have hj : (j : Nat) < (n0 :: rest0).length := by rw [← hlen]; exact j.isLt
    have hgi : ((n0 :: rest0).zip (canonDepths []
        ((n0 :: rest0).map (fun n => ((n.start, n.stop) : Iv))))).get i
        = ((n0 :: rest0).get ⟨i, hi⟩, (canonDepths []
            ((n0 :: rest0).map (fun n => ((n.start, n.stop) : Iv)))).get
          ⟨i, by rw [canonDepths_length, List.length_map]; exact hi⟩) := by
      apply List.getElem_zip
    have hgj : ((n0 :: rest0).zip (canonDepths []
        ((n0 :: rest0).map (fun n => ((n.start, n.stop) : Iv))))).get j
        = ((n0 :: rest0).get ⟨j, hj⟩, (canonDepths []
            ((n0 :: rest0).map (fun n => ((n.start, n.stop) : Iv)))).get
          ⟨j, by rw [canonDepths_length, List.length_map]; exact hj⟩) := by
      apply List.getElem_zip
    rw [hgi] at h1 h2 ⊢
    rw [hgj] at h1 h2 ⊢
    simp only at h1 h2 ⊢
    -- reduce to the closed-form depth comparison on the interval list
    have hmap : ∀ (k : Nat) (hk2 : k < (n0 :: rest0).length),
        ((n0 :: rest0).map (fun n => ((n.start, n.stop) : Iv))).get
          ⟨k, by rw [List.length_map]; exact hk2⟩
          = (((n0 :: rest0).get ⟨k, hk2⟩).start, ((n0 :: rest0).get ⟨k, hk2⟩).stop) := by
      intro k hk2
      rw [List.get_map]
    have := canon_depth_lt ((n0 :: rest0).map (fun n => ((n.start, n.stop) : Iv)))
      (by
        intro q hq
        rcases List.mem_map.mp hq with ⟨m, hm, rfl⟩
        exact hpos m hm)
      (by rw [List.pairwise_map]; exact hstrict)
      (by rw [List.pairwise_map]; exact hdisc)
      i j (by rw [List.length_map]; exact hi) (by rw [List.length_map]; exact hj)
      hij ?_ ?_
    · convert this using 2
    · rw [hmap i hi, hmap j hj]
      exact h1
    · rw [hmap i hi, hmap j hj]
      exact h2

/-- Witness for C9 on a two-scope thread with distinct starts. -/
theorem C9_depth_monotonic_witness :
    (∀ r ∈ project_nvtx [(1, ⟨"k", "k", 0, 1, 0⟩)] (fun _ => [])
        [⟨"r", 1, 0, 100⟩, ⟨"s", 1, 10, 20⟩] (-1000, 1000), 0 ≤ (r.depth : Int)) ∧
    (project_nvtx [(1, ⟨"k", "k", 0, 1, 0⟩)] (fun _ => [])
        [⟨"r", 1, 0, 100⟩, ⟨"s", 1, 10, 20⟩] (-1000, 1000)).Pairwise
      (fun a b => a.start ≤ b.start → b.stop ≤ a.stop → a.depth < b.depth) :=
  C9_depth_monotonic 1 _ _ _ _ (by decide) rfl (by decide) (by decide)
    (by decide) (by decide) (by decide) (by decide)

/-- Counterexample to C7 as stated: on a device with no kernels,
`overlap_analysis` does not return an empty collection — it returns the
error-marker dict `{"error": "no kernels"}` (it does not raise). -/
theorem C7_overlap_error_marker :
    overlap_analysis [] = OverlapOutcome.err "no kernels" := by decide

/-- Claim C7, amended: on empty-result conditions the collective breakdown,
iteration detection and projection return empty lists and never raise; the
overlap analysis also never raises but returns the error-marker dict above
rather than an empty collection. -/
theorem C7_empty_results :
    (∀ kernels : List Kernel, (∀ k ∈ kernels, isNcclClass k.name = false) →
      nccl_breakdown kernels = .ok []) ∧
    (∀ (kmap : List (Int × Kernel)) (rt_all : List RT),
      detect_iterations kmap [] rt_all = []) ∧
    (∀ (rt_idx : Int → List RT) (nvtx : List NvtxTidRow) (trim : Int × Int),
      project_nvtx [] rt_idx nvtx trim = []) ∧
    overlap_analysis [] = OverlapOutcome.err "no kernels" := by
  refine ⟨?_, ?_, ?_, by decide⟩
  · intro kernels h
    have hnil : ncclKernelsOf kernels = [] := by
      rw [ncclKernelsOf, List.filter_eq_nil]
      intro k hk
      rw [h k hk]
      simp
    rw [nccl_breakdown, hnil, if_pos rfl]
  · intro kmap rt_all
    rw [detect_iterations]
    by_cases h : kmap = []
    · rw [if_pos h]
    · rw [if_neg h, keepTopLevel, keepGo, if_pos rfl]
  · intro rt_idx nvtx trim
    rw [project_nvtx, if_pos rfl]

/-- Witness for C7: each empty-result conjunct evaluated at a concrete
empty input. -/
theorem C7_empty_results_witness :
    nccl_breakdown [⟨"gemm_fp16", "", 0, 5, 0⟩] = .ok [] ∧
    detect_iterations [(1, ⟨"k", "k", 0, 1, 0⟩)] [] [⟨0, 1, 1⟩] = [] ∧
    project_nvtx [] (fun _ => []) [⟨"a", 1, 0, 10⟩] (0, 100) = [] ∧
    overlap_analysis [] = OverlapOutcome.err "no kernels" :=
  ⟨C7_empty_results.1 [⟨"gemm_fp16", "", 0, 5, 0⟩] (by decide),
   C7_empty_results.2.1 [(1, ⟨"k", "k", 0, 1, 0⟩)] [⟨0, 1, 1⟩],
   C7_empty_results.2.2.1 (fun _ => []) [⟨"a", 1, 0, 10⟩] (0, 100),
   C7_empty_results.2.2.2⟩

/-- Counterexample to C9 as stated: three scopes on one thread obeying the
stack discipline and processed in start order, where the scope `[10,15]`
processed first among the two sharing start 10 leaves the emitted scope
`[20,30]` with depth 1, equal to — not strictly greater than — the depth of
its immediate CPU-containing ancestor `[10,100]`. -/
theorem C9_depth_counterexample :
    project_nvtx [(1, ⟨"k", "k", 0, 1, 0⟩)] (fun _ => [])
        [⟨"a", 1, 10, 15⟩, ⟨"b", 1, 10, 100⟩, ⟨"c", 1, 20, 30⟩] (-1000, 1000)
      = [⟨"a", 10, 15, 0, false⟩, ⟨"b", 10, 100, 1, false⟩,
         ⟨"c", 20, 30, 1, false⟩] ∧
    ([((10 : Int), (15 : Int)), (10, 100), (20, 30)].Pairwise NestedOrDisjoint) ∧
    (10 : Int) ≤ 20 ∧ (30 : Int) ≤ 100 ∧ ¬ ((1 : Nat) < 1) ∧
    ¬ ((10 : Int) ≤ 20 ∧ (30 : Int) ≤ 15) := by
  refine ⟨by decide, ?_, by decide, by decide, by decide, by decide⟩
  decide

/-! ## Tree nodes (`tree.py`) and the convergence analyzer (`ai/analyzer.py`) -/

theorem round_mono_q {a b : ℚ} (h : a ≤ b) : round a ≤ round b := by
  rw [round_eq, round_eq]
  exact Int.floor_mono (by linarith)

theorem round1_bounds {x : ℚ} (h0 : 0 ≤ x) (h1 : x ≤ 100) :
    0 ≤ round1 x ∧ round1 x ≤ 100 := by
  have hm : round ((0 : ℚ)) ≤ round (10 * x) := round_mono_q (by linarith)
  have hM : round (10 * x) ≤ round ((1000 : ℚ)) := round_mono_q (by linarith)
  rw [round_zero] at hm
  have h1000 : round ((1000 : ℚ)) = 1000 := by
    rw [show ((1000 : ℚ)) = ((1000 : ℤ) : ℚ) by norm_num, round_intCast]
  rw [h1000] at hM
  constructor
  · rw [round1]
    apply div_nonneg _ (by norm_num)
    exact_mod_cast hm
  · rw [round1, div_le_iff (by norm_num)]
    calc ((round (10 * x) : ℤ) : ℚ) ≤ ((1000 : ℤ) : ℚ) := by exact_mod_cast hM
      _ = 100 * 10 := by norm_num

/-- Claim C6: in every convergence report, `mapped + unmapped =
total_kernels`, `coverage_pct` is the rounded percentage (0 with no
kernels), and it lies in `[0, 100]`. -/
theorem C6_convergence_arithmetic (tree_roots : List Node) :
    (convergence_report tree_roots).mapped_kernels
        + (convergence_report tree_roots).unmapped_kernels
      = (convergence_report tree_roots).total_kernels ∧
    ((convergence_report tree_roots).total_kernels = 0 →
      (convergence_report tree_roots).coverage_pct = 0) ∧
    ((convergence_report tree_roots).total_kernels ≠ 0 →
      (convergence_report tree_roots).coverage_pct
        = round1 (100 * ((convergence_report tree_roots).mapped_kernels : ℚ)
            / ((convergence_report tree_roots).total_kernels : ℚ))) ∧
    0 ≤ (convergence_report tree_roots).coverage_pct ∧
    (convergence_report tree_roots).coverage_pct ≤ 100 := by
  refine ⟨rfl, ?_, ?_, ?_⟩
  · intro h
    have h' : (convStats tree_roots).mapped + (convStats tree_roots).unmapped = 0 := h
    show (if (convStats tree_roots).mapped + (convStats tree_roots).unmapped ≠ 0
        then _ else (0 : ℚ)) = 0
    rw [if_neg (by omega)]
  · intro h
    have h' : (convStats tree_roots).mapped + (convStats tree_roots).unmapped ≠ 0 := h
    show (if (convStats tree_roots).mapped + (convStats tree_roots).unmapped ≠ 0
        then _ else (0 : ℚ)) = _
    rw [if_pos h']
    rfl
  · by_cases h : (convStats tree_roots).mapped + (convStats tree_roots).unmapped = 0
    · have hz : (convergence_report tree_roots).coverage_pct = 0 := by
        show (if (convStats tree_roots).mapped + (convStats tree_roots).unmapped ≠ 0
            then _ else (0 : ℚ)) = 0
        rw [if_neg (by omega)]
      rw [hz]
      norm_num
    · have hd : (0 : ℚ)
          < (((convStats tree_roots).mapped + (convStats tree_roots).unmapped : Nat) : ℚ) := by
        exact_mod_cast Nat.pos_of_ne_zero h
      have hq0 : (0 : ℚ) ≤ 100 * ((convStats tree_roots).mapped : ℚ)
          / ((((convStats tree_roots).mapped + (convStats tree_roots).unmapped : Nat)) : ℚ) := by
        apply div_nonneg _ (le_of_lt hd)
        positivity
      have hq1 : 100 * ((convStats tree_roots).mapped : ℚ)
          / ((((convStats tree_roots).mapped + (convStats tree_roots).unmapped : Nat)) : ℚ)
          ≤ 100 := by
        rw [div_le_iff hd]
        have hmt : ((convStats tree_roots).mapped : ℚ)
            ≤ (((convStats tree_roots).mapped + (convStats tree_roots).unmapped : Nat) : ℚ) := by
          exact_mod_cast Nat.le_add_right _ _
        nlinarith
      have hb := round1_bounds hq0 hq1
      have hpct : (convergence_report tree_roots).coverage_pct
          = round1 (100 * ((convStats tree_roots).mapped : ℚ)
            / ((((convStats tree_roots).mapped + (convStats tree_roots).unmapped : Nat)) : ℚ)) := by
        show (if (convStats tree_roots).mapped + (convStats tree_roots).unmapped ≠ 0
            then _ else (0 : ℚ)) = _
        rw [if_pos h]
      rw [hpct]
      exact hb

/-- Witness for C6 at a one-scope tree: the inner implications are
exercised at a converged tree and an empty one. -/
theorem C6_convergence_arithmetic_witness :
    ((convergence_report [Node.scope "r" 0 10 [Node.leaf "k" "k" 0 5 0]]).mapped_kernels
        + (convergence_report [Node.scope "r" 0 10 [Node.leaf "k" "k" 0 5 0]]).unmapped_kernels
      = (convergence_report [Node.scope "r" 0 10 [Node.leaf "k" "k" 0 5 0]]).total_kernels) ∧
    (convergence_report ([] : List Node)).coverage_pct = 0 :=
  ⟨(C6_convergence_arithmetic _).1, (C6_convergence_arithmetic []).2.1 (by simp [convergence_report, convStats])⟩

theorem walkTargets_nil (maxK d : Nat) : walkTargets maxK d [] = [] := by
  rw [walkTargets]

theorem mem_walk_single (maxK d : Nat) (t : Target) :
    ∀ (F : List Node) (n : Node), n ∈ F →
    t ∈ walkTargets maxK d [n] → t ∈ walkTargets maxK d F
  | [], n, hn, _ => by simp at hn
  | m :: rest, n, hn, ht => by
    rcases List.mem_cons.mp hn with rfl | hn
    · cases n with
      | leaf a b c dd ee =>
        rw [walkTargets, walkTargets_nil] at ht
        simp at ht
      | scope nm s e ch =>
        rw [walkTargets, walkTargets_nil, List.append_nil] at ht
        rw [walkTargets]
        simp only [List.mem_append] at ht ⊢
        tauto
    · have hrec := mem_walk_single maxK d t rest n hn ht
      cases m with
      | leaf a b c dd ee =>
        rw [walkTargets]
        exact hrec
      | scope nm s e ch =>
        rw [walkTargets]
        simp only [List.mem_append]
        tauto

theorem scope_target_mem (maxK : Nat) {F : List Node} {d : Nat} {n : Node}
    (h : ScopeIn F d n) :
    ∀ t, t ∈ walkTargets maxK d [n] → t ∈ walkTargets maxK 0 F := by
  induction h with
  | root hn =>
    intro t ht
    exact mem_walk_single maxK 0 t _ _ hn ht
  | @child d nm s e ch m hsc hm ih =>
    intro t ht
    refine ih t ?_
    have h2 : t ∈ walkTargets maxK (d + 1) ch :=
      mem_walk_single maxK (d + 1) t ch m hm ht
    rw [walkTargets]
    simp only [List.mem_append]
    tauto

theorem orderedInsert_filter_targetGe (a : Target) (c : Nat) :
    ∀ (l : List Target),
    (List.orderedInsert targetGe a l).filter (fun t => decide (t.kernel_count = c))
      = if a.kernel_count = c then
          a :: l.filter (fun t => decide (t.kernel_count = c))
        else l.filter (fun t => decide (t.kernel_count = c))
  | [] => by
    rw [List.orderedInsert]
    by_cases h : a.kernel_count = c
    · rw [if_pos h]
      simp [h]
    · rw [if_neg h]
      simp [h]
  | b :: l => by
    rw [List.orderedInsert]
    by_cases hr : targetGe a b
    · rw [if_pos hr]
      by_cases h : a.kernel_count = c
      · rw [if_pos h]
        simp [h]
      · rw [if_neg h]
        simp [h]
    · rw [if_neg hr]
      have hb : a.kernel_count < b.kernel_count := by
        unfold targetGe at hr
        omega
      by_cases h : a.kernel_count = c
      · rw [if_pos h]
        have hbc : ¬ b.kernel_count = c := by omega
        rw [List.filter_cons_of_neg (by simpa using hbc),
          List.filter_cons_of_neg (by simpa using hbc),
          orderedInsert_filter_targetGe a c l, if_pos h]
      · rw [if_neg h]
        by_cases hbc : b.kernel_count = c
        · rw [List.filter_cons_of_pos (by simpa using hbc),
            List.filter_cons_of_pos (by simpa using hbc),
            orderedInsert_filter_targetGe a c l, if_neg h]
        · rw [List.filter_cons_of_neg (by simpa using hbc),
            List.filter_cons_of_neg (by simpa using hbc),
            orderedInsert_filter_targetGe a c l, if_neg h]

theorem insertionSort_filter_targetGe (c : Nat) : ∀ (l : List Target),
    (List.insertionSort targetGe l).filter (fun t => decide (t.kernel_count = c))
      = l.filter (fun t => decide (t.kernel_count = c))
  | [] => rfl
  | a :: l => by
    rw [List.insertionSort, orderedInsert_filter_targetGe a c _,
      insertionSort_filter_targetGe c l]
    by_cases h : a.kernel_count = c
    · rw [if_pos h, List.filter_cons_of_pos (by simpa using h)]
    · rw [if_neg h, List.filter_cons_of_neg (by simpa using h)]

/-- Claim C5, amended: the refinement-target list contains every leaf scope
with more than `max_kernels` (default 1) kernel children as a plain target,
and every scope with both scope children and more than `max_kernels`
uncovered direct kernel children as a "mixed" target (the code does not
flag mixed scopes with exactly one uncovered kernel child); the list is
sorted by descending kernel count, and ties keep the stable walk order. -/
theorem C5_refinement_targets :
    (∀ (F : List Node) (d : Nat) (nm : String) (s e : Int) (ch : List Node),
      ScopeIn F d (.scope nm s e ch) →
      (nvtxChildren ch).isEmpty = true →
      1 < (kernChildren ch).length →
      (⟨nm, d, durationMs s e, (kernChildren ch).length,
        (kernChildren ch).map nodeName, none⟩ : Target)
        ∈ find_refinement_targets F) ∧
    (∀ (F : List Node) (d : Nat) (nm : String) (s e : Int) (ch : List Node),
      ScopeIn F d (.scope nm s e ch) →
      (nvtxChildren ch).isEmpty = false →
      1 < (kernChildren ch).length →
      (⟨nm, d, durationMs s e, (kernChildren ch).length,
        (kernChildren ch).map nodeName,
        some "mixed: has both NVTX sub-ranges and uncovered kernels"⟩ : Target)
        ∈ find_refinement_targets F) ∧
    (∀ F : List Node, (find_refinement_targets F).Pairwise targetGe) ∧
    (∀ (F : List Node) (c : Nat),
      (find_refinement_targets F).filter (fun t => decide (t.kernel_count = c))
        = (walkTargets 1 0 F).filter (fun t => decide (t.kernel_count = c))) := by
  refine ⟨?_, ?_, ?_, ?_⟩
  · intro F d nm s e ch h hleaf hcnt
    rw [find_refinement_targets,
      (List.perm_insertionSort targetGe _).mem_iff]
    refine scope_target_mem 1 h _ ?_
    rw [walkTargets, if_pos ⟨hleaf, hcnt⟩]
    exact List.mem_append.mpr (Or.inl (List.mem_cons_self ..))
  · intro F d nm s e ch h hmixed hcnt
    rw [find_refinement_targets,
      (List.perm_insertionSort targetGe _).mem_iff]
    refine scope_target_mem 1 h _ ?_
    rw [walkTargets]
    rw [if_neg (fun hcond => by rw [hmixed] at hcond; simp at hcond)]
    rw [if_pos ⟨by rw [hmixed]; simp, hcnt⟩]
    rw [List.nil_append]
    exact List.mem_append.mpr (Or.inl (List.mem_cons_self ..))
  · intro F
    exact List.sorted_insertionSort targetGe _
  · intro F c
    exact insertionSort_filter_targetGe c _

theorem C5_refinement_targets_witness :
    (⟨"p", 0, durationMs 0 5000000, 2, ["ka", "kb"], none⟩ : Target)
      ∈ find_refinement_targets
        [Node.scope "p" 0 5000000
          [Node.leaf "ka" "ka" 0 1 0, Node.leaf "kb" "kb" 1 2 0]] :=
  C5_refinement_targets.1
    [Node.scope "p" 0 5000000
      [Node.leaf "ka" "ka" 0 1 0, Node.leaf "kb" "kb" 1 2 0]]
    0 "p" 0 5000000 [Node.leaf "ka" "ka" 0 1 0, Node.leaf "kb" "kb" 1 2 0]
    (ScopeIn.root (List.mem_cons_self ..)) (by decide) (by decide)

/-! ## Primary-thread selection (`tree.py`) -/

/-- Counterexample to C2 as stated: with two threads tied at 5 correlated
launches, the database may emit thread 7 first, and the query then returns
7, not the numerically smallest thread id 3. -/
theorem C2_primary_thread_counterexample :
    find_primary_thread [(7, 5), (3, 5)] = 7 ∧ (7 : Int) ≠ 3 := by decide

/-- Claim C2, amended: primary-thread selection returns a thread with the
maximum count of launches correlated to the device's kernels, but on equal
counts the choice follows the database's unspecified row order rather than
a deterministic smallest-thread-id rule; with zero correlated launches it
returns the sentinel 0, which callers treat as "no primary thread". -/
theorem C2_primary_thread (groups : List (Int × Nat)) :
    (groups = [] → find_primary_thread groups = 0) ∧
    (groups ≠ [] → ∃ cnt, (find_primary_thread groups, cnt) ∈ groups ∧
      ∀ p ∈ groups, p.2 ≤ cnt) := by
  have hperm := List.perm_insertionSort cntGe groups
  have hsorted := List.sorted_insertionSort cntGe groups
  rcases hs : List.insertionSort cntGe groups with _ | ⟨g, rest⟩
  · rw [hs] at hperm
    have hnil : groups = [] := hperm.symm.eq_nil
    constructor
    · intro _
      rw [find_primary_thread, hs]
    · intro h
      exact absurd hnil h
  · rw [hs] at hperm hsorted
    constructor
    · intro h
      rw [h] at hperm
      exact absurd hperm.eq_nil (by simp)
    · intro _
      refine ⟨g.2, ?_, ?_⟩
      · rw [find_primary_thread, hs]
        exact hperm.mem_iff.mp (List.mem_cons_self ..)
      · intro p hp
        rcases List.mem_cons.mp (hperm.mem_iff.mpr hp) with rfl | hm
        · exact le_refl _
        · exact List.rel_of_pairwise_cons hsorted hm

/-- Witness for C2 at a concrete nonempty group list. -/
theorem C2_primary_thread_witness :
    ∃ cnt, (find_primary_thread [(5, 2), (9, 7)], cnt) ∈ [((5 : Int), 2), (9, 7)] ∧
      ∀ p ∈ [((5 : Int), 2), (9, 7)], p.2 ≤ cnt :=
  (C2_primary_thread [(5, 2), (9, 7)]).2 (by decide)

/-- Claim C8: the guarded percentages (`overlap_pct`, `coverage_pct`)
return the defined value 0 on a zero denominator, but `nccl_breakdown`'s
per-type `pct` divides by the total collective duration unguarded: a
collective kernel set of zero total duration raises `ZeroDivisionError`
instead of yielding 0 — the code bug this claim uncovers. -/
theorem C8_zero_denominator :
    nccl_breakdown [⟨"ncclAllReduce_sum", "", 5, 5, 0⟩]
      = .error "ZeroDivisionError" ∧
    (∀ kernels : List Kernel, kernels ≠ [] → ncclNs kernels = 0 →
      ∃ r, overlap_analysis kernels = .ok r ∧ r.overlap_pct = 0) ∧
    (∀ roots : List Node, (convergence_report roots).total_kernels = 0 →
      (convergence_report roots).coverage_pct = 0) := by
  refine ⟨rfl, ?_, ?_⟩
  · intro kernels hne hz
    rw [overlap_analysis, if_neg hne]
    refine ⟨_, rfl, ?_⟩
    show (if ncclNs kernels ≠ 0 then _ else (0 : ℚ)) = 0
    rw [if_neg (by omega)]
  · intro roots h
    have h' : (convStats roots).mapped + (convStats roots).unmapped = 0 := h
    show (if (convStats roots).mapped + (convStats roots).unmapped ≠ 0
        then _ else (0 : ℚ)) = 0
    rw [if_neg (by omega)]

/-- Witness for C8: the guarded branches evaluated at concrete inputs with
zero denominators. -/
theorem C8_zero_denominator_witness :
    nccl_breakdown [⟨"ncclAllReduce_sum", "", 5, 5, 0⟩]
      = .error "ZeroDivisionError" ∧
    (∃ r, overlap_analysis [⟨"gemm_fp16", "", 0, 4, 0⟩] = .ok r ∧
      r.overlap_pct = 0) ∧
    (convergence_report ([] : List Node)).coverage_pct = 0 :=
  ⟨C8_zero_denominator.1,
   C8_zero_denominator.2.1 [⟨"gemm_fp16", "", 0, 4, 0⟩] (by decide) (by decide),
   C8_zero_denominator.2.2 [] (by simp [convergence_report, convStats])⟩

/-! ## NVTX tree construction (`tree.py`) -/

theorem hasLeafT_append (t : Int) : ∀ (A B : List Node),
    hasLeafT t (A ++ B) = (hasLeafT t A || hasLeafT t B)
  | [], B => by simp [hasLeafT]
  | .leaf n d s e st :: rest, B => by
    rw [List.cons_append, hasLeafT, hasLeafT, hasLeafT_append t rest B,
      Bool.or_assoc]
  | .scope nm s e ch :: rest, B => by
    rw [List.cons_append, hasLeafT, hasLeafT, hasLeafT_append t rest B,
      Bool.or_assoc]

theorem scopeTreesWithT_append (t : Int) : ∀ (A B : List Node),
    scopeTreesWithT t (A ++ B) = scopeTreesWithT t A + scopeTreesWithT t B
  | [], B => by simp [scopeTreesWithT]
  | .leaf n d s e st :: rest, B => by
    rw [List.cons_append, scopeTreesWithT, scopeTreesWithT,
      scopeTreesWithT_append t rest B]
  | .scope nm s e ch :: rest, B => by
    rw [List.cons_append, scopeTreesWithT, scopeTreesWithT,
      scopeTreesWithT_append t rest B]
    omega

theorem SepInner_append (t : Int) : ∀ (A B : List Node),
    SepInner t A → SepInner t B → SepInner t (A ++ B)
  | [], B, _, hB => hB
  | .leaf n d s e st :: rest, B, hA, hB => by
    rw [SepInner] at hA
    rw [List.cons_append, SepInner]
    exact SepInner_append t rest B hA hB
  | .scope nm s e ch :: rest, B, hA, hB => by
    rw [SepInner] at hA
    rw [List.cons_append, SepInner]
    exact ⟨hA.1, SepInner_append t rest B hA.2 hB⟩

theorem hasLeafT_of_mem_leaf (t : Int) : ∀ (L : List Node) (n d : String)
    (e st : Int), Node.leaf n d t e st ∈ L → hasLeafT t L = true
  | [], _, _, _, _, h => by simp at h
  | a :: rest, n, d, e, st, h => by
    rcases List.mem_cons.mp h with rfl | hm
    · rw [hasLeafT]
      simp
    · cases a with
      | leaf n2 d2 s2 e2 st2 =>
        rw [hasLeafT, hasLeafT_of_mem_leaf t rest n d e st hm, Bool.or_true]
      | scope nm2 s2 e2 ch2 =>
        rw [hasLeafT, hasLeafT_of_mem_leaf t rest n d e st hm, Bool.or_true]

theorem listsT_false_of_no_leaf {t : Int} {L : List Node}
    (h : hasLeafT t L = false) : listsT t L = false := by
  rw [listsT, List.any_eq_false]
  intro c hc
  cases c with
  | leaf n2 d2 s2 e2 st2 =>
    simp only [decide_eq_true_eq]
    intro heq
    subst heq
    rw [hasLeafT_of_mem_leaf s2 L n2 d2 e2 st2 hc] at h
    exact absurd h (by simp)
  | scope _ _ _ _ => simp

theorem scopeTrees_zero_of_no_leaf (t : Int) : ∀ (L : List Node),
    hasLeafT t L = false → scopeTreesWithT t L = 0
  | [], _ => by rw [scopeTreesWithT]
  | .leaf n d s e st :: rest, h => by
    rw [hasLeafT, Bool.or_eq_false_iff] at h
    rw [scopeTreesWithT]
    exact scopeTrees_zero_of_no_leaf t rest h.2
  | .scope nm s e ch :: rest, h => by
    rw [hasLeafT, Bool.or_eq_false_iff] at h
    rw [scopeTreesWithT, h.1, if_neg (by simp)]
    rw [scopeTrees_zero_of_no_leaf t rest h.2]

theorem listers_zero_of_no_leaf (t : Int) : ∀ (L : List Node),
    hasLeafT t L = false → listersCount t L = 0
  | [], _ => by rw [listersCount]
  | .leaf n d s e st :: rest, h => by
    rw [hasLeafT, Bool.or_eq_false_iff] at h
    rw [listersCount]
    exact listers_zero_of_no_leaf t rest h.2
  | .scope nm s e ch :: rest, h => by
    rw [hasLeafT, Bool.or_eq_false_iff] at h
    rw [listersCount, listsT_false_of_no_leaf h.1, if_neg (by simp),
      listers_zero_of_no_leaf t ch h.1, listers_zero_of_no_leaf t rest h.2]

theorem hasLeafT_dedup (t : Int) : ∀ (L : List Node) (claimed : List Int),
    hasLeafT t (dedupKernels claimed L) = true → hasLeafT t L = true
  | [], _, h => by simp [dedupKernels, hasLeafT] at h
  | .leaf n d s e st :: rest, claimed, h => by
    rw [dedupKernels] at h
    rw [hasLeafT]
    by_cases hc : s ∈ claimed
    · rw [if_pos hc] at h
      rw [hasLeafT_dedup t rest claimed h, Bool.or_true]
    · rw [if_neg hc, hasLeafT] at h
      rcases Bool.or_eq_true_iff.mp h with h | h
      · rw [h, Bool.true_or]
      · rw [hasLeafT_dedup t rest claimed h, Bool.or_true]
  | .scope nm s e ch :: rest, claimed, h => by
    rw [dedupKernels, hasLeafT] at h
    rw [hasLeafT]
    rcases Bool.or_eq_true_iff.mp h with h | h
    · rw [hasLeafT_dedup t ch _ h, Bool.true_or]
    · rw [hasLeafT_dedup t rest claimed h, Bool.or_true]

theorem listers_dedup_zero (t : Int) : ∀ (L : List Node) (claimed : List Int),
    scopeTreesWithT t L = 0 → listersCount t (dedupKernels claimed L) = 0
  | [], _, _ => by rw [dedupKernels, listersCount]
  | .leaf n d s e st :: rest, claimed, h => by
    rw [scopeTreesWithT] at h
    rw [dedupKernels]
    by_cases hc : s ∈ claimed
    · rw [if_pos hc]
      exact listers_dedup_zero t rest claimed h
    · rw [if_neg hc, listersCount]
      exact listers_dedup_zero t rest claimed h
  | .scope nm s e ch :: rest, claimed, h => by
    rw [scopeTreesWithT] at h
    have hch : hasLeafT t ch = false := by
      by_contra hcon
      rw [Bool.not_eq_false] at hcon
      rw [hcon, if_pos rfl] at h
      omega
    have hrest : scopeTreesWithT t rest = 0 := by
      rw [hch, if_neg (by simp)] at h
      omega
    rw [dedupKernels, listersCount]
    have hsub : hasLeafT t (dedupKernels (collectKernelStarts (nvtxChildren ch)) ch)
        = false := by
      by_contra hcon
      rw [Bool.not_eq_false] at hcon
      rw [hasLeafT_dedup t ch _ hcon] at hch
      exact absurd hch (by simp)
    rw [listsT_false_of_no_leaf hsub, if_neg (by simp),
      listers_dedup_zero t rest claimed hrest,
      listers_zero_of_no_leaf t _ hsub]

theorem mem_collectKernelStarts (t : Int) : ∀ (L : List Node),
    t ∈ collectKernelStarts L ↔ hasLeafT t L = true
  | [] => by
    rw [collectKernelStarts, hasLeafT]
    simp
  | .leaf n d s e st :: rest => by
    rw [collectKernelStarts, hasLeafT, List.mem_cons,
      Bool.or_eq_true_iff, decide_eq_true_eq]
    rw [mem_collectKernelStarts t rest]
    constructor
    · rintro (rfl | h)
      · exact Or.inl rfl
      · exact Or.inr h
    · rintro (rfl | h)
      · exact Or.inl rfl
      · exact Or.inr h
  | .scope nm s e ch :: rest => by
    rw [collectKernelStarts, hasLeafT, List.mem_append,
      Bool.or_eq_true_iff]
    rw [mem_collectKernelStarts t ch, mem_collectKernelStarts t rest]

theorem listsT_dedup_claimed (t : Int) : ∀ (L : List Node) (claimed : List Int),
    t ∈ claimed → listsT t (dedupKernels claimed L) = false
  | [], _, _ => by rw [dedupKernels, listsT, List.any_nil]
  | .leaf n d s e st :: rest, claimed, ht => by
    rw [dedupKernels]
    by_cases hc : s ∈ claimed
    · rw [if_pos hc]
      exact listsT_dedup_claimed t rest claimed ht
    · rw [if_neg hc, listsT, List.any_cons]
      have hs : s ≠ t := fun h => hc (h ▸ ht)
      simp only [decide_eq_true_eq]
      rw [Bool.or_eq_false_iff]
      refine ⟨by simpa using hs, listsT_dedup_claimed t rest claimed ht⟩
  | .scope nm s e ch :: rest, claimed, ht => by
    rw [dedupKernels, listsT, List.any_cons]
    rw [Bool.or_eq_false_iff]
    exact ⟨rfl, listsT_dedup_claimed t rest claimed ht⟩

theorem scopeTrees_zero_iff_nvtx (t : Int) : ∀ (ch : List Node),
    scopeTreesWithT t ch = 0 ↔ hasLeafT t (nvtxChildren ch) = false
  | [] => by
    rw [scopeTreesWithT, nvtxChildren, List.filter_nil, hasLeafT]
    simp
  | .leaf n d s e st :: rest => by
    rw [scopeTreesWithT, nvtxChildren,
      List.filter_cons_of_neg (by simp [isScopeNode])]
    have ih := scopeTrees_zero_iff_nvtx t rest
    rw [nvtxChildren] at ih
    exact ih
  | .scope nm s e ch :: rest => by
    have ih := scopeTrees_zero_iff_nvtx t rest
    rw [nvtxChildren] at ih
    rw [scopeTreesWithT, nvtxChildren,
      List.filter_cons_of_pos (by simp [isScopeNode]), hasLeafT,
      Bool.or_eq_false_iff, ← ih]
    constructor
    · intro h
      by_cases hc : hasLeafT t ch = true
      · rw [hc, if_pos rfl] at h
        omega
      · rw [Bool.not_eq_true] at hc
        rw [hc, if_neg (by simp)] at h
        exact ⟨hc, by omega⟩
    · rintro ⟨h1, h2⟩
      rw [h1, if_neg (by simp), h2]

theorem allLeaves_scopeTrees (t : Int) : ∀ (L : List Node),
    AllLeaves L → scopeTreesWithT t L = 0
  | [], _ => by rw [scopeTreesWithT]
  | .leaf n d s e st :: rest, h => by
    rw [scopeTreesWithT]
    exact allLeaves_scopeTrees t rest
      (fun x hx => h x (List.mem_cons_of_mem _ hx))
  | .scope nm s e ch :: rest, h => by
    have := h (.scope nm s e ch) (List.mem_cons_self ..)
    simp [isScopeNode] at this

theorem allLeaves_sepInner (t : Int) : ∀ (L : List Node),
    AllLeaves L → SepInner t L
  | [], _ => by rw [SepInner]; trivial
  | .leaf n d s e st :: rest, h => by
    rw [SepInner]
    exact allLeaves_sepInner t rest
      (fun x hx => h x (List.mem_cons_of_mem _ hx))
  | .scope nm s e ch :: rest, h => by
    have := h (.scope nm s e ch) (List.mem_cons_self ..)
    simp [isScopeNode] at this

theorem scopeTrees_pos_hasLeaf (t : Int) : ∀ (L : List Node),
    1 ≤ scopeTreesWithT t L → hasLeafT t L = true
  | [], h => by rw [scopeTreesWithT] at h; omega
  | .leaf n d s e st :: rest, h => by
    rw [scopeTreesWithT] at h
    rw [hasLeafT, scopeTrees_pos_hasLeaf t rest h, Bool.or_true]
  | .scope nm s e ch :: rest, h => by
    rw [scopeTreesWithT] at h
    rw [hasLeafT]
    by_cases hc : hasLeafT t ch = true
    · rw [hc, Bool.true_or]
    · rw [Bool.not_eq_true] at hc
      rw [hc, if_neg (by simp)] at h
      have h2 : 1 ≤ scopeTreesWithT t rest := by omega
      rw [hc, scopeTrees_pos_hasLeaf t rest h2, Bool.or_true]

/-- The dedup pass: a forest whose t-claiming scopes lie on one path keeps
at most one scope listing `t`. -/
theorem dedup_listers_le_one (t : Int) : ∀ (L : List Node) (claimed : List Int),
    SepT t L → listersCount t (dedupKernels claimed L) ≤ 1
  | [], _, _ => by rw [dedupKernels, listersCount]; omega
  | .leaf n d s e st :: rest, claimed, hsep => by
    rcases hsep with ⟨hcount, hinner⟩
    rw [scopeTreesWithT] at hcount
    rw [SepInner] at hinner
    rw [dedupKernels]
    by_cases hc : s ∈ claimed
    · rw [if_pos hc]
      exact dedup_listers_le_one t rest claimed ⟨hcount, hinner⟩
    · rw [if_neg hc, listersCount]
      exact dedup_listers_le_one t rest claimed ⟨hcount, hinner⟩
  | .scope nm s e ch :: rest, claimed, hsep => by
    rcases hsep with ⟨hcount, hinner⟩
    rw [scopeTreesWithT] at hcount
    rw [SepInner] at hinner
    rw [dedupKernels, listersCount]
    by_cases hch : hasLeafT t ch = true
    · -- this tree contains t: the remaining trees do not
      rw [hch, if_pos rfl] at hcount
      have hrest0 : scopeTreesWithT t rest = 0 := by omega
      rw [listers_dedup_zero t rest claimed hrest0]
      -- within the tree: at most one scope-child subtree carries t
      by_cases hcl : hasLeafT t (nvtxChildren ch) = true
      · -- t is claimed from below: the direct leaves with start t are removed
        have htcl : t ∈ collectKernelStarts (nvtxChildren ch) :=
          (mem_collectKernelStarts t _).mpr hcl
        rw [listsT_dedup_claimed t ch _ htcl, if_neg (by simp)]
        have := dedup_listers_le_one t ch
          (collectKernelStarts (nvtxChildren ch)) hinner.1
        omega
      · -- no scope child carries t: nothing deeper lists it
        rw [Bool.not_eq_true] at hcl
        have hzero : scopeTreesWithT t ch = 0 :=
          (scopeTrees_zero_iff_nvtx t ch).mpr hcl
        rw [listers_dedup_zero t ch _ hzero]
        split <;> omega
    · -- this tree is t-free
      rw [Bool.not_eq_true] at hch
      rw [hch, if_neg (by simp)] at hcount
      have hsub : hasLeafT t (dedupKernels (collectKernelStarts (nvtxChildren ch)) ch)
          = false := by
        by_contra hcon
        rw [Bool.not_eq_false] at hcon
        rw [hasLeafT_dedup t ch _ hcon] at hch
        exact absurd hch (by simp)
      rw [listsT_false_of_no_leaf hsub, if_neg (by simp),
        listers_zero_of_no_leaf t _ hsub]
      have hcount2 : scopeTreesWithT t rest ≤ 1 := by omega
      have := dedup_listers_le_one t rest claimed ⟨hcount2, hinner.2⟩
      omega

theorem sepT_of_fin (t : Int) (f : Entry) (kids : List Node)
    (hk : SepT t kids) (hl : AllLeaves f.kernels) :
    scopeTreesWithT t (f.kernels ++ kids) ≤ 1
      ∧ SepInner t (f.kernels ++ kids) := by
  rw [scopeTreesWithT_append, allLeaves_scopeTrees t _ hl]
  exact ⟨by have := hk.1; omega,
    SepInner_append t _ _ (allLeaves_sepInner t _ hl) hk.2⟩

theorem sepT_append_fin (t : Int) (F : List Node) (f : Entry) (kids : List Node)
    (hF : SepT t F) (hk : SepT t kids) (hl : AllLeaves f.kernels)
    (hz : hasLeafT t (f.kernels ++ kids) = true → scopeTreesWithT t F = 0) :
    SepT t (F ++ [finalizeE f kids]) := by
  rcases sepT_of_fin t f kids hk hl with ⟨hc1, hc2⟩
  constructor
  · rw [scopeTreesWithT_append]
    show scopeTreesWithT t F +
      ((if hasLeafT t (f.kernels ++ kids) then 1 else 0) + scopeTreesWithT t []) ≤ 1
    rw [scopeTreesWithT]
    by_cases h : hasLeafT t (f.kernels ++ kids) = true
    · rw [hz h, h, if_pos rfl]
    · rw [Bool.not_eq_true] at h
      rw [h, if_neg (by simp)]
      have := hF.1
      omega
  · refine SepInner_append t _ _ hF.2 ?_
    show SepInner t (Node.scope f.name f.gstart f.gstop (f.kernels ++ kids) :: [])
    rw [SepInner]
    exact ⟨⟨hc1, hc2⟩, by rw [SepInner]; trivial⟩

theorem popCommitted_inv (t c : Int) :
    ∀ (st : List (Entry × List Node)) (roots : List Node) (rem : List Entry),
    BuildInv t (st, roots) rem →
    (∀ f ∈ rem, c ≤ f.cstart) →
    BuildInv t (popCommitted c st roots) rem
  | [], roots, rem, hinv, _ => by
    rw [popCommitted]
    exact hinv
  | [(f, kids)], roots, rem, hinv, hc => by
    rw [popCommitted]
    by_cases hpop : f.cstop ≤ c
    · rw [if_pos hpop]
      -- the last stack element closes into a new root tree
      have hmem : (f, kids) ∈ [(f, kids)] := List.mem_cons_self ..
      have hksep : SepT t kids := hinv.kids_sep _ hmem
      have hkl : AllLeaves f.kernels := hinv.stack_leaves _ hmem
      refine ⟨?_, by simp, by simp, by simp, ?_, by simp, by simp⟩
      · refine sepT_append_fin t roots f kids hinv.roots_sep hksep hkl ?_
        intro hT
        refine hinv.no_root_t ⟨(f, kids), hmem, ?_⟩
        rw [hasLeafT_append] at hT
        rcases Bool.or_eq_true_iff.mp hT with h | h
        · exact Or.inl h
        · exact Or.inr h
      · -- once closed, no later entry touches t
        intro hante f2 hf2
        show hasLeafT t f2.kernels = false
        rcases hante with h1 | h2
        · rw [scopeTreesWithT_append] at h1
          show _
          by_cases hro : 1 ≤ scopeTreesWithT t roots
          · exact hinv.no_future (Or.inl hro) f2 hf2
          · have hfin : scopeTreesWithT t [finalizeE f kids] = 1 := by
              have : scopeTreesWithT t [finalizeE f kids] ≤ 1 := by
                show (if hasLeafT t (f.kernels ++ kids) then 1 else 0)
                  + scopeTreesWithT t [] ≤ 1
                rw [scopeTreesWithT]
                split <;> omega
              omega
            have hT : hasLeafT t (f.kernels ++ kids) = true := by
              by_contra hcon
              rw [Bool.not_eq_true] at hcon
              have : scopeTreesWithT t [finalizeE f kids] = 0 := by
                show (if hasLeafT t (f.kernels ++ kids) then 1 else 0)
                  + scopeTreesWithT t [] = 0
                rw [scopeTreesWithT, hcon, if_neg (by simp)]
              omega
            rw [hasLeafT_append] at hT
            rcases Bool.or_eq_true_iff.mp hT with hker | hkid
            · -- t sits in the closing entry's kernels: a later toucher
              -- would have to start before this entry's CPU end, which the
              -- pop condition forbids
              by_contra hcon
              rw [Bool.not_eq_false] at hcon
              have h4 : f2.cstart < f.cstop := hinv.stack_rem _ hmem f2 hf2 hker hcon
              have h5 := hc f2 hf2
              omega
            · exact hinv.no_future (Or.inr ⟨(f, kids), hmem, hkid⟩) f2 hf2
        · simp at h2
    · rw [if_neg hpop]
      exact hinv
  | (f, kids) :: (g, gk) :: rest, roots, rem, hinv, hc => by
    rw [popCommitted]
    by_cases hpop : f.cstop ≤ c
    · rw [if_pos hpop]
      have hmemf : (f, kids) ∈ (f, kids) :: (g, gk) :: rest := List.mem_cons_self ..
      have hmemg : (g, gk) ∈ (f, kids) :: (g, gk) :: rest :=
        List.mem_cons_of_mem _ (List.mem_cons_self ..)
      have hksep : SepT t kids := hinv.kids_sep _ hmemf
      have hkl : AllLeaves f.kernels := hinv.stack_leaves _ hmemf
      have hchain_fg : stackT t (f, kids) → hasLeafT t gk = false :=
        List.rel_of_pairwise_cons hinv.chain (List.mem_cons_self ..)
      have hfinT : hasLeafT t (f.kernels ++ kids) = true → stackT t (f, kids) := by
        intro hT
        rw [hasLeafT_append] at hT
        rcases Bool.or_eq_true_iff.mp hT with h | h
        · exact Or.inl h
        · exact Or.inr h
      have hstackT_new : stackT t (g, gk ++ [finalizeE f kids]) →
          stackT t (g, gk) ∨ stackT t (f, kids) := by
        rintro (h | h)
        · exact Or.inl (Or.inl h)
        · rw [hasLeafT_append] at h
          rcases Bool.or_eq_true_iff.mp h with h | h
          · exact Or.inl (Or.inr h)
          · have h' : hasLeafT t
                (Node.scope f.name f.gstart f.gstop (f.kernels ++ kids) :: []) = true := h
            rw [hasLeafT] at h'
            rcases Bool.or_eq_true_iff.mp h' with h2 | h2
            · exact Or.inr (hfinT h2)
            · rw [hasLeafT] at h2
              simp at h2
      refine popCommitted_inv t c ((g, gk ++ [finalizeE f kids]) :: rest) roots rem
        ⟨hinv.roots_sep, ?_, ?_, ?_, ?_, ?_, ?_⟩ hc
      · -- kids_sep with the completed node appended under g
        intro s hs
        rcases List.mem_cons.mp hs with rfl | hs
        · show SepT t (gk ++ [finalizeE f kids])
          refine sepT_append_fin t gk f kids (hinv.kids_sep _ hmemg) hksep hkl ?_
          intro hT
          exact scopeTrees_zero_of_no_leaf t gk (hchain_fg (hfinT hT))
        · exact hinv.kids_sep _ (List.mem_cons_of_mem _ (List.mem_cons_of_mem _ hs))
      · -- chain
        have hch := hinv.chain
        rw [List.pairwise_cons] at hch
        rcases hch with ⟨hf_low, hch2⟩
        rw [List.pairwise_cons] at hch2
        rcases hch2 with ⟨hg_low, hch3⟩
        rw [List.pairwise_cons]
        refine ⟨?_, hch3⟩
        intro low hlow hTnew
        rcases hstackT_new hTnew with h | h
        · exact hg_low low hlow h
        · exact hf_low low (List.mem_cons_of_mem _ hlow) h
      · -- no_root_t
        rintro ⟨s, hs, hTs⟩
        rcases List.mem_cons.mp hs with rfl | hs
        · rcases hstackT_new hTs with h | h
          · exact hinv.no_root_t ⟨(g, gk), hmemg, h⟩
          · exact hinv.no_root_t ⟨(f, kids), hmemf, h⟩
        · exact hinv.no_root_t ⟨s, List.mem_cons_of_mem _ (List.mem_cons_of_mem _ hs), hTs⟩
      · -- no_future
        rintro (h1 | ⟨s, hs, hTs⟩) f2 hf2
        · exact hinv.no_future (Or.inl h1) f2 hf2
        · rcases List.mem_cons.mp hs with rfl | hs
          · rw [hasLeafT_append] at hTs
            rcases Bool.or_eq_true_iff.mp hTs with h | h
            · exact hinv.no_future (Or.inr ⟨(g, gk), hmemg, h⟩) f2 hf2
            · have h' : hasLeafT t
                  (Node.scope f.name f.gstart f.gstop (f.kernels ++ kids) :: []) = true := h
              rw [hasLeafT] at h'
              rcases Bool.or_eq_true_iff.mp h' with h2 | h2
              · rw [hasLeafT_append] at h2
                rcases Bool.or_eq_true_iff.mp h2 with h3 | h3
                · by_contra hcon
                  rw [Bool.not_eq_false] at hcon
                  have h4 : f2.cstart < f.cstop :=
                    hinv.stack_rem _ hmemf f2 hf2 h3 hcon
                  have h5 := hc f2 hf2
                  omega
                · exact hinv.no_future (Or.inr ⟨(f, kids), hmemf, h3⟩) f2 hf2
              · rw [hasLeafT] at h2
                simp at h2
          · exact hinv.no_future
              (Or.inr ⟨s, List.mem_cons_of_mem _ (List.mem_cons_of_mem _ hs), hTs⟩) f2 hf2
      · -- stack_rem
        intro s hs f2 hf2 h1 h2
        rcases List.mem_cons.mp hs with rfl | hs
        · exact hinv.stack_rem _ hmemg f2 hf2 h1 h2
        · exact hinv.stack_rem _
            (List.mem_cons_of_mem _ (List.mem_cons_of_mem _ hs)) f2 hf2 h1 h2
      · -- stack_leaves
        intro s hs
        rcases List.mem_cons.mp hs with rfl | hs
        · exact hinv.stack_leaves (g, gk) hmemg
        · exact hinv.stack_leaves _
            (List.mem_cons_of_mem _ (List.mem_cons_of_mem _ hs))
    · rw [if_neg hpop]
      exact hinv
  termination_by st _ _ => st.length

theorem flushAll_inv (t : Int) :
    ∀ (st : List (Entry × List Node)) (roots : List Node),
    BuildInv t (st, roots) [] → SepT t (flushAll st roots)
  | [], roots, hinv => by
    rw [flushAll]
    exact hinv.roots_sep
  | [(f, kids)], roots, hinv => by
    rw [flushAll]
    have hmem : (f, kids) ∈ [(f, kids)] := List.mem_cons_self ..
    refine sepT_append_fin t roots f kids hinv.roots_sep
      (hinv.kids_sep _ hmem) (hinv.stack_leaves _ hmem) ?_
    intro hT
    refine hinv.no_root_t ⟨(f, kids), hmem, ?_⟩
    rw [hasLeafT_append] at hT
    rcases Bool.or_eq_true_iff.mp hT with h | h
    · exact Or.inl h
    · exact Or.inr h
  | (f, kids) :: (g, gk) :: rest, roots, hinv => by
    rw [flushAll]
    have hmemf : (f, kids) ∈ (f, kids) :: (g, gk) :: rest := List.mem_cons_self ..
    have hmemg : (g, gk) ∈ (f, kids) :: (g, gk) :: rest :=
      List.mem_cons_of_mem _ (List.mem_cons_self ..)
    have hksep : SepT t kids := hinv.kids_sep _ hmemf
    have hkl : AllLeaves f.kernels := hinv.stack_leaves _ hmemf
    have hchain_fg : stackT t (f, kids) → hasLeafT t gk = false :=
      List.rel_of_pairwise_cons hinv.chain (List.mem_cons_self ..)
    have hfinT : hasLeafT t (f.kernels ++ kids) = true → stackT t (f, kids) := by
      intro hT
      rw [hasLeafT_append] at hT
      rcases Bool.or_eq_true_iff.mp hT with h | h
      · exact Or.inl h
      · exact Or.inr h
    have hstackT_new : stackT t (g, gk ++ [finalizeE f kids]) →
        stackT t (g, gk) ∨ stackT t (f, kids) := by
      rintro (h | h)
      · exact Or.inl (Or.inl h)
      · rw [hasLeafT_append] at h
        rcases Bool.or_eq_true_iff.mp h with h | h
        · exact Or.inl (Or.inr h)
        · have h' : hasLeafT t
              (Node.scope f.name f.gstart f.gstop (f.kernels ++ kids) :: []) = true := h
          rw [hasLeafT] at h'
          rcases Bool.or_eq_true_iff.mp h' with h2 | h2
          · exact Or.inr (hfinT h2)
          · rw [hasLeafT] at h2
            simp at h2
    refine flushAll_inv t ((g, gk ++ [finalizeE f kids]) :: rest) roots
      ⟨hinv.roots_sep, ?_, ?_, ?_, by simp, by simp, ?_⟩
    · intro s hs
      rcases List.mem_cons.mp hs with rfl | hs
      · show SepT t (gk ++ [finalizeE f kids])
        refine sepT_append_fin t gk f kids (hinv.kids_sep _ hmemg) hksep hkl ?_
        intro hT
        exact scopeTrees_zero_of_no_leaf t gk (hchain_fg (hfinT hT))
      · exact hinv.kids_sep _ (List.mem_cons_of_mem _ (List.mem_cons_of_mem _ hs))
    · have hch := hinv.chain
      rw [List.pairwise_cons] at hch
      rcases hch with ⟨hf_low, hch2⟩
      rw [List.pairwise_cons] at hch2
      rcases hch2 with ⟨hg_low, hch3⟩
      rw [List.pairwise_cons]
      refine ⟨?_, hch3⟩
      intro low hlow hTnew
      rcases hstackT_new hTnew with h | h
      · exact hg_low low hlow h
      · exact hf_low low (List.mem_cons_of_mem _ hlow) h
    · rintro ⟨s, hs, hTs⟩
      rcases List.mem_cons.mp hs with rfl | hs
      · rcases hstackT_new hTs with h | h
        · exact hinv.no_root_t ⟨(g, gk), hmemg, h⟩
        · exact hinv.no_root_t ⟨(f, kids), hmemf, h⟩
      · exact hinv.no_root_t ⟨s, List.mem_cons_of_mem _ (List.mem_cons_of_mem _ hs), hTs⟩
    · intro s hs
      rcases List.mem_cons.mp hs with rfl | hs
      · exact hinv.stack_leaves (g, gk) hmemg
      · exact hinv.stack_leaves _
          (List.mem_cons_of_mem _ (List.mem_cons_of_mem _ hs))
  termination_by st _ _ => st.length

theorem buildStep_inv (t : Int) (σ : List (Entry × List Node) × List Node)
    (e : Entry) (rest : List Entry)
    (hinv : BuildInv t σ (e :: rest))
    (hsorted : ∀ f ∈ rest, e.cstart ≤ f.cstart)
    (hE3 : ∀ f ∈ rest, hasLeafT t e.kernels = true →
        hasLeafT t f.kernels = true → f.cstart < e.cstop)
    (hel : AllLeaves e.kernels) :
    BuildInv t (buildStep σ e) rest := by
  have hc : ∀ f ∈ e :: rest, e.cstart ≤ f.cstart := by
    intro f hf
    rcases List.mem_cons.mp hf with rfl | hf
    · exact le_refl _
    · exact hsorted f hf
  have hpop : BuildInv t (popCommitted e.cstart σ.1 σ.2) (e :: rest) :=
    popCommitted_inv t e.cstart σ.1 σ.2 (e :: rest) ⟨hinv.roots_sep, hinv.kids_sep,
      hinv.chain, hinv.no_root_t, hinv.no_future, hinv.stack_rem,
      hinv.stack_leaves⟩ hc
  show BuildInv t ((e, ([] : List Node)) :: (popCommitted e.cstart σ.1 σ.2).1,
    (popCommitted e.cstart σ.1 σ.2).2) rest
  refine ⟨hpop.roots_sep, ?_, ?_, ?_, ?_, ?_, ?_⟩
  · intro s hs
    rcases List.mem_cons.mp hs with rfl | hs
    · exact ⟨by rw [scopeTreesWithT]; omega, by rw [SepInner]; trivial⟩
    · exact hpop.kids_sep _ hs
  · rw [List.pairwise_cons]
    refine ⟨?_, hpop.chain⟩
    intro low hlow hTe
    by_contra hcon
    rw [Bool.not_eq_false] at hcon
    have := hpop.no_future (Or.inr ⟨low, hlow, hcon⟩) e (List.mem_cons_self ..)
    rcases hTe with h | h
    · rw [this] at h
      exact absurd h (by simp)
    · have h2 : hasLeafT t ([] : List Node) = true := h
      rw [hasLeafT] at h2
      exact absurd h2 (by simp)
  · rintro ⟨s, hs, hTs⟩
    rcases List.mem_cons.mp hs with rfl | hs
    · by_cases hr : scopeTreesWithT t (popCommitted e.cstart σ.1 σ.2).2 = 0
      · exact hr
      · have h1 : 1 ≤ scopeTreesWithT t (popCommitted e.cstart σ.1 σ.2).2 := by omega
        have := hpop.no_future (Or.inl h1) e (List.mem_cons_self ..)
        rcases hTs with h | h
        · rw [this] at h
          exact absurd h (by simp)
        · have h2 : hasLeafT t ([] : List Node) = true := h
          rw [hasLeafT] at h2
          exact absurd h2 (by simp)
    · exact hpop.no_root_t ⟨s, hs, hTs⟩
  · rintro (h1 | ⟨s, hs, hTs⟩) f2 hf2
    · exact hpop.no_future (Or.inl h1) f2 (List.mem_cons_of_mem _ hf2)
    · rcases List.mem_cons.mp hs with rfl | hs
      · have h2 : hasLeafT t ([] : List Node) = true := hTs
        rw [hasLeafT] at h2
        exact absurd h2 (by simp)
      · exact hpop.no_future (Or.inr ⟨s, hs, hTs⟩) f2 (List.mem_cons_of_mem _ hf2)
  · intro s hs f2 hf2 h1 h2
    rcases List.mem_cons.mp hs with rfl | hs
    · exact hE3 f2 hf2 h1 h2
    · exact hpop.stack_rem _ hs f2 (List.mem_cons_of_mem _ hf2) h1 h2
  · intro s hs
    rcases List.mem_cons.mp hs with rfl | hs
    · exact hel
    · exact hpop.stack_leaves _ hs

theorem foldSteps_inv (t : Int) :
    ∀ (E : List Entry) (σ : List (Entry × List Node) × List Node),
    BuildInv t σ E →
    E.Pairwise (fun a b => a.cstart ≤ b.cstart) →
    E.Pairwise (fun a b => hasLeafT t a.kernels = true →
        hasLeafT t b.kernels = true → b.cstart < a.cstop) →
    (∀ f ∈ E, AllLeaves f.kernels) →
    SepT t (flushAll (E.foldl buildStep σ).1 (E.foldl buildStep σ).2)
  | [], σ, hinv, _, _, _ => flushAll_inv t σ.1 σ.2
      ⟨hinv.roots_sep, hinv.kids_sep, hinv.chain, hinv.no_root_t,
        hinv.no_future, hinv.stack_rem, hinv.stack_leaves⟩
  | e :: rest, σ, hinv, hsort, hE3, hleaves => by
    rw [List.foldl_cons]
    rw [List.pairwise_cons] at hsort hE3
    exact foldSteps_inv t rest (buildStep σ e)
      (buildStep_inv t σ e rest hinv hsort.1 hE3.1
        (hleaves e (List.mem_cons_self ..)))
      hsort.2 hE3.2 (fun f hf => hleaves f (List.mem_cons_of_mem _ hf))

theorem buildInv_init (t : Int) (E : List Entry) :
    BuildInv t (([] : List (Entry × List Node)), ([] : List Node)) E := by
  refine ⟨⟨by rw [scopeTreesWithT]; omega, by rw [SepInner]; trivial⟩,
    by simp, by simp, by simp, ?_, by simp, by simp⟩
  rintro (h1 | h2) f hf
  · rw [scopeTreesWithT] at h1
    omega
  · simp at h2

theorem listersCount_cons (t : Int) (n : Node) (rest : List Node) :
    listersCount t (n :: rest) = listerW t n + listersCount t rest := by
  cases n with
  | leaf a b c d e => rw [listersCount, listerW]; omega
  | scope a b c ch => rw [listersCount, listerW]

theorem listersCount_perm (t : Int) {A B : List Node} (h : A.Perm B) :
    listersCount t A = listersCount t B := by
  induction h with
  | nil => rfl
  | cons x _ ih => rw [listersCount_cons, listersCount_cons, ih]
  | swap x y l =>
    rw [listersCount_cons, listersCount_cons, listersCount_cons, listersCount_cons]
    omega
  | trans _ _ ih1 ih2 => rw [ih1, ih2]

theorem listsT_perm (t : Int) {A B : List Node} (h : A.Perm B) :
    listsT t A = listsT t B := by
  rw [listsT, listsT]
  cases h1 : A.any _ <;> cases h2 : B.any _
  · rfl
  · rw [List.any_eq_true] at h2
    rcases h2 with ⟨x, hm, hf⟩
    rw [List.any_eq_false] at h1
    exact absurd hf (by simpa using h1 x (h.mem_iff.mpr hm))
  · rw [List.any_eq_true] at h1
    rcases h1 with ⟨x, hm, hf⟩
    rw [List.any_eq_false] at h2
    exact absurd hf (by simpa using h2 x (h.mem_iff.mp hm))
  · rfl

theorem listsT_map_sortNode (t : Int) : ∀ (L : List Node),
    listsT t (L.map sortNode) = listsT t L
  | [] => rfl
  | .leaf a b s d e :: rest => by
    rw [List.map_cons,
      show sortNode (Node.leaf a b s d e) = Node.leaf a b s d e from by rw [sortNode]]
    show (decide (s = t) || listsT t (rest.map sortNode))
      = (decide (s = t) || listsT t rest)
    rw [listsT_map_sortNode t rest]
  | .scope a b c ch :: rest => by
    rw [List.map_cons, sortNode]
    show (false || listsT t (rest.map sortNode)) = (false || listsT t rest)
    rw [listsT_map_sortNode t rest]

theorem listersCount_map_sortNode (t : Int) : ∀ (L : List Node),
    listersCount t (L.map sortNode) = listersCount t L
  | [] => rfl
  | .leaf a b s d e :: rest => by
    rw [List.map_cons,
      show sortNode (Node.leaf a b s d e) = Node.leaf a b s d e from by rw [sortNode]]
    rw [listersCount, listersCount]
    exact listersCount_map_sortNode t rest
  | .scope a b c ch :: rest => by
    rw [List.map_cons,
      show sortNode (Node.scope a b c ch)
          = Node.scope a b c (List.insertionSort nodeLe (ch.map sortNode)) from by
        rw [sortNode, List.attach_map_val]]
    rw [listersCount, listersCount]
    have hperm : (List.insertionSort nodeLe (ch.map sortNode)).Perm (ch.map sortNode) :=
      List.perm_insertionSort _ _
    rw [listsT_perm t hperm, listersCount_perm t hperm,
      listsT_map_sortNode t ch, listersCount_map_sortNode t ch,
      listersCount_map_sortNode t rest]

theorem pairwise_mem_cases {α : Type} {R : α → α → Prop} :
    ∀ {l : List α}, l.Pairwise R → ∀ {a b : α}, a ∈ l → b ∈ l →
      a = b ∨ R a b ∨ R b a
  | [], _, a, b, ha, _ => absurd ha (by simp)
  | x :: rest, h, a, b, ha, hb => by
    rw [List.pairwise_cons] at h
    rcases List.mem_cons.mp ha with rfl | ha2
    · rcases List.mem_cons.mp hb with rfl | hb2
      · exact Or.inl rfl
      · exact Or.inr (Or.inl (h.1 b hb2))
    · rcases List.mem_cons.mp hb with rfl | hb2
      · exact Or.inr (Or.inr (h.1 a ha2))
      · exact pairwise_mem_cases h.2 ha2 hb2

theorem lookupK_start_inj {kmap : List (Int × Kernel)}
    (hinj : kmap.Pairwise (fun p q => p.1 ≠ q.1 ∧ p.2.start ≠ q.2.start))
    {c1 c2 : Int} {k1 k2 : Kernel}
    (h1 : lookupK kmap c1 = some k1) (h2 : lookupK kmap c2 = some k2)
    (hs : k1.start = k2.start) : c1 = c2 := by
  rw [lookupK] at h1 h2
  obtain ⟨p1, hf1, hp1⟩ := Option.map_eq_some'.mp h1
  obtain ⟨p2, hf2, hp2⟩ := Option.map_eq_some'.mp h2
  have hm1 := List.mem_of_find?_eq_some hf1
  have hm2 := List.mem_of_find?_eq_some hf2
  have hc1 : p1.1 = c1 := by have := List.find?_some hf1; simpa using this
  have hc2 : p2.1 = c2 := by have := List.find?_some hf2; simpa using this
  have hps : p1.2.start = p2.2.start := by rw [hp1, hp2]; exact hs
  rcases pairwise_mem_cases hinj hm1 hm2 with heq | hR | hR
  · rw [← hc1, ← hc2, heq]
  · exact absurd hps hR.2
  · exact absurd hps.symm hR.2

theorem child_kernels_allLeaves (kmap : List (Int × Kernel)) (rt_rows : List RT)
    (cs ce : Int) : AllLeaves (child_kernels kmap rt_rows cs ce) := by
  intro n hn
  rw [child_kernels] at hn
  obtain ⟨r, _, hsome⟩ := List.mem_filterMap.mp hn
  obtain ⟨k, _, rfl⟩ := Option.map_eq_some'.mp hsome
  rw [isScopeNode]

theorem hasLeafT_filterMap (t : Int) (kmap : List (Int × Kernel)) :
    ∀ (l : List RT),
    hasLeafT t (l.filterMap (fun rt => (lookupK kmap rt.corr).map
      (fun k => Node.leaf k.name k.demangled k.start k.stop k.stream))) = true →
    ∃ r ∈ l, ∃ k, lookupK kmap r.corr = some k ∧ k.start = t
  | [], h => by
    rw [List.filterMap_nil, hasLeafT] at h
    exact absurd h (by simp)
  | r :: rest, h => by
    cases hk : lookupK kmap r.corr with
    | none =>
      rw [List.filterMap_cons_none (by rw [hk]; rfl)] at h
      obtain ⟨r2, hm, hx⟩ := hasLeafT_filterMap t kmap rest h
      exact ⟨r2, List.mem_cons_of_mem _ hm, hx⟩
    | some k =>
      rw [List.filterMap_cons_some (by rw [hk]; rfl)] at h
      rw [hasLeafT] at h
      rcases Bool.or_eq_true_iff.mp h with h1 | h1
      · exact ⟨r, List.mem_cons_self .., k, hk, of_decide_eq_true h1⟩
      · obtain ⟨r2, hm, hx⟩ := hasLeafT_filterMap t kmap rest h1
        exact ⟨r2, List.mem_cons_of_mem _ hm, hx⟩

theorem child_kernels_touch {t : Int} {kmap : List (Int × Kernel)}
    {rt_rows : List RT} {cs ce : Int}
    (h : hasLeafT t (child_kernels kmap rt_rows cs ce) = true) :
    ∃ r ∈ rt_rows, cs ≤ r.start ∧ r.stop ≤ ce ∧
      ∃ k, lookupK kmap r.corr = some k ∧ k.start = t := by
  rw [child_kernels] at h
  obtain ⟨r, hm, hx⟩ := hasLeafT_filterMap t kmap _ h
  have hm2 := List.mem_filter.mp hm
  have hm3 : r ∈ rt_rows := (List.takeWhile_sublist _).subset hm2.1
  have hpred := hm2.2
  rw [Bool.and_eq_true, decide_eq_true_eq, decide_eq_true_eq] at hpred
  exact ⟨r, hm3, hpred.1, hpred.2, hx⟩

theorem mkEntry_char {kmap : List (Int × Kernel)} {rt_rows : List RT}
    {trim : Int × Int} {n : NvtxRow} {e : Entry}
    (h : (if n.text = "" then none else
      if (child_kernels kmap rt_rows n.start n.stop).isEmpty then none else
      if pyMax ((child_kernels kmap rt_rows n.start n.stop).map nodeStop) < trim.1
          ∨ trim.2 < pyMin ((child_kernels kmap rt_rows n.start n.stop).map nodeStart)
        then none else
      some (⟨n.text,
        pyMin ((child_kernels kmap rt_rows n.start n.stop).map nodeStart),
        pyMax ((child_kernels kmap rt_rows n.start n.stop).map nodeStop),
        n.start, n.stop,
        child_kernels kmap rt_rows n.start n.stop⟩ : Entry)) = some e) :
    e.cstart = n.start ∧ e.cstop = n.stop ∧
      e.kernels = child_kernels kmap rt_rows n.start n.stop := by
  split at h
  · simp at h
  · split at h
    · simp at h
    · split at h
      · simp at h
      · rw [Option.some.injEq] at h
        subst h
        exact ⟨rfl, rfl, rfl⟩

theorem mkEntries_mem {kmap : List (Int × Kernel)} {rt_rows : List RT}
    {trim : Int × Int} {nvtx : List NvtxRow} {e : Entry}
    (h : e ∈ mkEntries kmap rt_rows trim nvtx) :
    ∃ n ∈ nvtx, e.cstart = n.start ∧ e.cstop = n.stop ∧
      e.kernels = child_kernels kmap rt_rows n.start n.stop := by
  rw [mkEntries] at h
  obtain ⟨n, hn, hsome⟩ := List.mem_filterMap.mp h
  exact ⟨n, hn, mkEntry_char hsome⟩

theorem mkEntries_sorted {kmap : List (Int × Kernel)} {rt_rows : List RT}
    {trim : Int × Int} {nvtx : List NvtxRow}
    (Hsort : nvtx.Pairwise (fun a b => a.start ≤ b.start)) :
    (mkEntries kmap rt_rows trim nvtx).Pairwise (fun a b => a.cstart ≤ b.cstart) := by
  rw [mkEntries, List.pairwise_filterMap]
  refine List.Pairwise.imp ?_ Hsort
  intro a b hab x hx y hy
  rw [Option.mem_def] at hx hy
  rcases mkEntry_char hx with ⟨hxa, _, _⟩
  rcases mkEntry_char hy with ⟨hyb, _, _⟩
  rw [hxa, hyb]
  exact hab

theorem mkEntries_E3 (t : Int) {kmap : List (Int × Kernel)} {rt_rows : List RT}
    {trim : Int × Int} {nvtx : List NvtxRow}
    (Hpos : ∀ r ∈ rt_rows, r.start < r.stop)
    (Hcorr : rt_rows.Pairwise (fun a b => a.corr ≠ b.corr))
    (Hinj : kmap.Pairwise (fun p q => p.1 ≠ q.1 ∧ p.2.start ≠ q.2.start)) :
    (mkEntries kmap rt_rows trim nvtx).Pairwise
      (fun a b => hasLeafT t a.kernels = true →
        hasLeafT t b.kernels = true → b.cstart < a.cstop) := by
  refine List.pairwise_of_forall_mem_list ?_
  intro a ha b hb hta htb
  obtain ⟨na, hna, hca, hcae, hka⟩ := mkEntries_mem ha
  obtain ⟨nb, hnb, hcb, hcbe, hkb⟩ := mkEntries_mem hb
  rw [hka] at hta
  rw [hkb] at htb
  obtain ⟨r1, hm1, hs1, he1, k1, hl1, hk1⟩ := child_kernels_touch hta
  obtain ⟨r2, hm2, hs2, he2, k2, hl2, hk2⟩ := child_kernels_touch htb
  have hceq : r1.corr = r2.corr :=
    lookupK_start_inj Hinj hl1 hl2 (by rw [hk1, hk2])
  have hreq : r1 = r2 := by
    rcases pairwise_mem_cases Hcorr hm1 hm2 with h | h | h
    · exact h
    · exact absurd hceq h
    · exact absurd hceq.symm h
  subst hreq
  have hrpos := Hpos r1 hm1
  rw [hcb, hcae]
  omega

theorem mkEntries_allLeaves {kmap : List (Int × Kernel)} {rt_rows : List RT}
    {trim : Int × Int} {nvtx : List NvtxRow} :
    ∀ e ∈ mkEntries kmap rt_rows trim nvtx, AllLeaves e.kernels := by
  intro e he
  obtain ⟨n, _, _, _, hk⟩ := mkEntries_mem he
  rw [hk]
  exact child_kernels_allLeaves kmap rt_rows n.start n.stop

/-- C3 (amended): leaf exclusivity of the built tree.  The claim as stated —
stack discipline of the scopes alone — is refuted by
`C3_leaf_exclusivity_counterexample`; the invariant does hold once the
trace is well-formed at the launch level: NVTX rows sorted by start (the
SQL `ORDER BY`), runtime rows of positive duration, pairwise-distinct
correlation ids, and a kernel map in which distinct entries have distinct
keys and distinct kernel start times (start is the kernel identity the
dedup pass uses).  Then after deduplication at most one scope node of the
built tree lists a leaf with any given kernel start among its children.
No stack-discipline hypothesis on the scopes is needed at all. -/
theorem C3_leaf_exclusivity (kmap : List (Int × Kernel)) (rt_rows : List RT)
    (nvtx : List NvtxRow) (trim : Int × Int)
    (Hsort : nvtx.Pairwise (fun a b => a.start ≤ b.start))
    (Hpos : ∀ r ∈ rt_rows, r.start < r.stop)
    (Hcorr : rt_rows.Pairwise (fun a b => a.corr ≠ b.corr))
    (Hinj : kmap.Pairwise (fun p q => p.1 ≠ q.1 ∧ p.2.start ≠ q.2.start)) :
    ∀ t : Int, listersCount t (build_nvtx_tree kmap rt_rows nvtx trim) ≤ 1 := by
  intro t
  rw [build_nvtx_tree]
  by_cases hk : kmap = []
  · rw [if_pos hk, listersCount]
    omega
  · rw [if_neg hk, listersCount_map_sortNode]
    exact dedup_listers_le_one t _ []
      (foldSteps_inv t (mkEntries kmap rt_rows trim nvtx) ([], [])
        (buildInv_init t _) (mkEntries_sorted Hsort)
        (mkEntries_E3 t Hpos Hcorr Hinj) mkEntries_allLeaves)

theorem C3_leaf_exclusivity_witness :
    ([⟨"a", 0, 10⟩, ⟨"b", 30, 40⟩] : List NvtxRow).Pairwise
        (fun a b => a.start ≤ b.start)
    ∧ (∀ r ∈ ([⟨5, 6, 1⟩] : List RT), r.start < r.stop)
    ∧ listersCount 100 (build_nvtx_tree [(1, ⟨"k", "k", 100, 105, 0⟩)]
        [⟨5, 6, 1⟩] [⟨"a", 0, 10⟩, ⟨"b", 30, 40⟩] (0, 1000000)) ≤ 1 :=
  ⟨by decide, by decide,
    C3_leaf_exclusivity [(1, ⟨"k", "k", 100, 105, 0⟩)] [⟨5, 6, 1⟩]
      [⟨"a", 0, 10⟩, ⟨"b", 30, 40⟩] (0, 1000000)
      (by decide) (by decide) (by decide) (by decide) 100⟩

theorem C3_leaf_exclusivity_counterexample :
    ([⟨"a", 0, 10⟩, ⟨"b", 10, 20⟩] : List NvtxRow).Pairwise
        (fun a b => a.stop ≤ b.start ∨ (a.start ≤ b.start ∧ b.stop ≤ a.stop))
    ∧ listersCount 100 (build_nvtx_tree [(1, ⟨"k", "k", 100, 105, 0⟩)]
        [⟨10, 10, 1⟩] [⟨"a", 0, 10⟩, ⟨"b", 10, 20⟩] (0, 1000000)) = 2 := by
  constructor
  · decide
  · rw [build_nvtx_tree, if_neg (by decide)]
    simp [mkEntries, child_kernels, lookupK, buildStep, popCommitted, flushAll,
      finalizeE, dedupKernels, collectKernelStarts, nvtxChildren, sortNode,
      listersCount, listsT, pyMin, pyMax, nodeStart, nodeStop, isScopeNode,
      List.insertionSort, List.orderedInsert]

theorem C5_refinement_targets_counterexample :
    build_nvtx_tree
        [(1, ⟨"k1", "k1", 1000, 1001, 0⟩), (2, ⟨"k2", "k2", 2000, 2001, 0⟩)]
        [⟨5, 6, 1⟩, ⟨12, 13, 2⟩] [⟨"P", 0, 100⟩, ⟨"C", 10, 20⟩] (0, 1000000)
      = [Node.scope "P" 1000 2001 [Node.leaf "k1" "k1" 1000 1001 0,
          Node.scope "C" 2000 2001 [Node.leaf "k2" "k2" 2000 2001 0]]]
    ∧ find_refinement_targets (build_nvtx_tree
        [(1, ⟨"k1", "k1", 1000, 1001, 0⟩), (2, ⟨"k2", "k2", 2000, 2001, 0⟩)]
        [⟨5, 6, 1⟩, ⟨12, 13, 2⟩] [⟨"P", 0, 100⟩, ⟨"C", 10, 20⟩] (0, 1000000)) = [] := by
  have h1 : build_nvtx_tree
        [(1, ⟨"k1", "k1", 1000, 1001, 0⟩), (2, ⟨"k2", "k2", 2000, 2001, 0⟩)]
        [⟨5, 6, 1⟩, ⟨12, 13, 2⟩] [⟨"P", 0, 100⟩, ⟨"C", 10, 20⟩] (0, 1000000)
      = [Node.scope "P" 1000 2001 [Node.leaf "k1" "k1" 1000 1001 0,
          Node.scope "C" 2000 2001 [Node.leaf "k2" "k2" 2000 2001 0]]] := by
    rw [build_nvtx_tree, if_neg (by decide)]
    simp [mkEntries, child_kernels, lookupK, buildStep, popCommitted, flushAll,
      finalizeE, dedupKernels, collectKernelStarts, nvtxChildren, sortNode,
      listersCount, listsT, pyMin, pyMax, nodeStart, nodeStop, isScopeNode,
      nodeLe, List.insertionSort, List.orderedInsert]
  refine ⟨h1, ?_⟩
  rw [h1]
  simp [find_refinement_targets, walkTargets, nvtxChildren, kernChildren,
    isScopeNode, List.insertionSort]

end NsysTui

